import Mathlib

/-!
A verification development for the `session-cookie` library: signed session
cookies for stateless request handlers.  The embedding models the two source
modules (the signing/verification engine with its constant-time comparison,
and the cookie codec: `serializeCookie`, `parseCookie`, `createCookie`,
`parseSession`, `verifySessionString`, `verifyCookieFromEvent`,
`getSecretKey`, `getCookieName`) together with the platform primitives they
call: HMAC-SHA1 / HMAC-SHA256, base64, UTF-8, percent-encoding, and the
canonical-JSON serializer / JSON parser pair.

Machine integers are modelled as `Nat` with explicit reduction modulo `2^32`
where the source works on 32-bit words; byte strings are `List Nat` with
each element below 256; JavaScript exceptions are modelled with `Except`.
-/

namespace SessionCookie

/-! ## Bytes and 32-bit words -/

/-- Reduce modulo `2 ^ 32` (JavaScript / Node hash state words are 32-bit). -/
def w32 (x : Nat) : Nat := x % 4294967296

/-- Left rotation of a 32-bit word by `n < 32` bits. -/
def rotl32 (n x : Nat) : Nat :=
  (x % 2 ^ (32 - n)) * 2 ^ n + x / 2 ^ (32 - n)

/-- Right rotation of a 32-bit word by `n < 32` bits. -/
def rotr32 (n x : Nat) : Nat :=
  (x % 2 ^ n) * 2 ^ (32 - n) + x / 2 ^ n

/-- Big-endian 4-byte encoding of a 32-bit word. -/
def be32 (x : Nat) : List Nat :=
  [x / 2 ^ 24 % 256, x / 2 ^ 16 % 256, x / 2 ^ 8 % 256, x % 256]

/-- Big-endian 8-byte encoding of a 64-bit value (message bit length). -/
def be64 (x : Nat) : List Nat :=
  [x / 2 ^ 56 % 256, x / 2 ^ 48 % 256, x / 2 ^ 40 % 256, x / 2 ^ 32 % 256,
   x / 2 ^ 24 % 256, x / 2 ^ 16 % 256, x / 2 ^ 8 % 256, x % 256]

/-! ## UTF-8 and UTF-16 -/

/-- UTF-8 encoding of one Unicode scalar value (Lean `Char`s are always
valid scalar values, as are the code points of JavaScript strings that
reach the byte-level APIs here). -/
def utf8EncodeChar (c : Char) : List Nat :=
  let n := c.toNat
  if n < 0x80 then [n]
  else if n < 0x800 then [0xC0 + n / 64, 0x80 + n % 64]
  else if n < 0x10000 then
    [0xE0 + n / 4096, 0x80 + n / 64 % 64, 0x80 + n % 64]
  else
    [0xF0 + n / 262144, 0x80 + n / 4096 % 64, 0x80 + n / 64 % 64, 0x80 + n % 64]

/-- The UTF-8 bytes of a string (`Buffer.from(s, 'utf-8')`). -/
def utf8Bytes (s : String) : List Nat :=
  s.data.flatMap utf8EncodeChar

/-- `Buffer.byteLength(s, 'utf-8')`: byte length, not character count. -/
def byteLength (s : String) : Nat := (utf8Bytes s).length

/-- The Unicode replacement character, produced by Node for byte sequences
that are not valid UTF-8 and for lone surrogates. -/
def replacementChar : Char := Char.ofNat 0xFFFD

/-- Build a `Char` from a code point, falling back to U+FFFD when the value
is not a valid scalar (models JavaScript's replacement behaviour). -/
def mkChar (n : Nat) : Char :=
  if n < 0xD800 ∨ (0xDFFF < n ∧ n < 0x110000) then Char.ofNat n
  else replacementChar

/-- Decode one character of a UTF-8 stream, given its lead byte and the
remaining bytes; malformed sequences give U+FFFD and consume only the
lead byte. -/
def utf8Step (b : Nat) (rest : List Nat) : Char × List Nat :=
  if b < 0x80 then (mkChar b, rest)
  else if b < 0xC0 then (replacementChar, rest)
  else if b < 0xE0 then
    match rest with
    | b2 :: rest2 =>
      if 0x80 ≤ b2 ∧ b2 < 0xC0 then
        (mkChar ((b - 0xC0) * 64 + (b2 - 0x80)), rest2)
      else (replacementChar, b2 :: rest2)
    | [] => (replacementChar, [])
  else if b < 0xF0 then
    match rest with
    | b2 :: b3 :: rest3 =>
      if (0x80 ≤ b2 ∧ b2 < 0xC0) ∧ (0x80 ≤ b3 ∧ b3 < 0xC0) then
        (mkChar ((b - 0xE0) * 4096 + (b2 - 0x80) * 64 + (b3 - 0x80)), rest3)
      else (replacementChar, b2 :: b3 :: rest3)
    | rest' => (replacementChar, rest')
  else if b < 0xF8 then
    match rest with
    | b2 :: b3 :: b4 :: rest4 =>
      if (0x80 ≤ b2 ∧ b2 < 0xC0) ∧ (0x80 ≤ b3 ∧ b3 < 0xC0) ∧
          (0x80 ≤ b4 ∧ b4 < 0xC0) then
        (mkChar ((b - 0xF0) * 262144 + (b2 - 0x80) * 4096 +
          (b3 - 0x80) * 64 + (b4 - 0x80)), rest4)
      else (replacementChar, b2 :: b3 :: b4 :: rest4)
    | rest' => (replacementChar, rest')
  else (replacementChar, rest)

theorem utf8Step_le (b : Nat) (rest : List Nat) :
    (utf8Step b rest).2.length ≤ rest.length := by
  unfold utf8Step
  split
  · simp
  · split
    · simp
    · split
      · split
        · split <;> simp
        · simp
      · split
        · split
          · split <;> simp_arith
          · simp
        · split
          · split
            · split <;> simp_arith
            · simp
          · simp

/-- Decode a UTF-8 byte sequence to characters
(`buf.toString('utf-8')`); invalid sequences yield U+FFFD. -/
def utf8DecodeAux : List Nat → List Char
  | [] => []
  | b :: rest =>
    (utf8Step b rest).1 :: utf8DecodeAux (utf8Step b rest).2
  termination_by bs => bs.length
  decreasing_by
    have := utf8Step_le b rest
    simp_arith
    omega

/-- Decode UTF-8 bytes to a string. -/
def utf8Decode (bs : List Nat) : String := String.mk (utf8DecodeAux bs)

/-- The UTF-16 units of one character: itself, or a surrogate pair for
an astral code point. -/
def charUnits (c : Char) : List Nat :=
  let n := c.toNat
  if n < 0x10000 then [n]
  else [0xD800 + (n - 0x10000) / 0x400, 0xDC00 + (n - 0x10000) % 0x400]

/-- The UTF-16 code units of a string.  JavaScript string indexing,
`length`, and `substring` all count UTF-16 units; astral code points
occupy two units (a surrogate pair). -/
def utf16Units (s : String) : List Nat :=
  s.data.flatMap charUnits

/-- JavaScript `s.length` (UTF-16 code units). -/
def utf16Length (s : String) : Nat := (utf16Units s).length

/-- Rebuild a string from UTF-16 code units.  Unpaired surrogates cannot be
represented in a Lean `String` and become U+FFFD; every string this
development feeds through here is ASCII, where the map is exact. -/
def utf16ToString (units : List Nat) : String :=
  String.mk (go units)
where
  go : List Nat → List Char
    | [] => []
    | u :: rest =>
      if 0xD800 ≤ u ∧ u < 0xDC00 then
        match rest with
        | u2 :: rest2 =>
          if 0xDC00 ≤ u2 ∧ u2 < 0xE000 then
            mkChar (0x10000 + (u - 0xD800) * 0x400 + (u2 - 0xDC00)) :: go rest2
          else replacementChar :: go (u2 :: rest2)
        | [] => [replacementChar]
      else mkChar u :: go rest
  termination_by units => units.length
  decreasing_by all_goals simp_arith [List.length_cons]

/-! ## SHA-1 -/

/-- SHA-1 state: five 32-bit words. -/
structure Sha1State where
  a : Nat
  b : Nat
  c : Nat
  d : Nat
  e : Nat

/-- Initial SHA-1 chaining values. -/
def sha1Init : Sha1State :=
  ⟨0x67452301, 0xEFCDAB89, 0x98BADCFE, 0x10325476, 0xC3D2E1F0⟩

/-- Split a byte list into 64-byte blocks. -/
def chunks64 : List Nat → List (List Nat)
  | [] => []
  | b :: rest => (b :: rest).take 64 :: chunks64 ((b :: rest).drop 64)
  termination_by l => l.length
  decreasing_by simp [List.length_drop]; omega

/-- Combine bytes into big-endian 32-bit words. -/
def toWords : List Nat → List Nat
  | b0 :: b1 :: b2 :: b3 :: rest =>
    (b0 * 2 ^ 24 + b1 * 2 ^ 16 + b2 * 2 ^ 8 + b3) :: toWords rest
  | _ => []

/-- SHA-1 message schedule: extend 16 words to 80. -/
def sha1Schedule (w16 : List Nat) : List Nat :=
  (List.range 64).foldl
    (fun w _ =>
      let k := w.length
      w ++ [rotl32 1 ((w.getD (k - 3) 0) ^^^ (w.getD (k - 8) 0) ^^^
        (w.getD (k - 14) 0) ^^^ (w.getD (k - 16) 0))])
    w16

/-- One SHA-1 round. -/
def sha1Round (st : Sha1State) (i : Nat) (wi : Nat) : Sha1State :=
  let f :=
    if i < 20 then (st.b &&& st.c) ||| ((st.b ^^^ 0xFFFFFFFF) &&& st.d)
    else if i < 40 then st.b ^^^ st.c ^^^ st.d
    else if i < 60 then (st.b &&& st.c) ||| (st.b &&& st.d) ||| (st.c &&& st.d)
    else st.b ^^^ st.c ^^^ st.d
  let k :=
    if i < 20 then 0x5A827999
    else if i < 40 then 0x6ED9EBA1
    else if i < 60 then 0x8F1BBCDC
    else 0xCA62C1D6
  let tmp := w32 (rotl32 5 st.a + f + st.e + k + wi)
  ⟨tmp, st.a, rotl32 30 st.b, st.c, st.d⟩

/-- Process one 64-byte block. -/
def sha1Block (st : Sha1State) (block : List Nat) : Sha1State :=
  let w := sha1Schedule (toWords block)
  let r := (List.range 80).foldl (fun s i => sha1Round s i (w.getD i 0)) st
  ⟨w32 (st.a + r.a), w32 (st.b + r.b), w32 (st.c + r.c),
   w32 (st.d + r.d), w32 (st.e + r.e)⟩

/-- Merkle–Damgård padding for 64-byte-block hashes. -/
def mdPad (msg : List Nat) : List Nat :=
  msg ++ [0x80] ++ List.replicate ((64 + 56 - (msg.length + 1) % 64) % 64) 0 ++
    be64 (8 * msg.length)

/-- SHA-1 of a byte sequence: a 20-byte digest. -/
def sha1 (msg : List Nat) : List Nat :=
  let f := (chunks64 (mdPad msg)).foldl sha1Block sha1Init
  be32 f.a ++ be32 f.b ++ be32 f.c ++ be32 f.d ++ be32 f.e

/-! ## SHA-256 -/

/-- The 64 SHA-256 round constants. -/
def sha256K : List Nat :=
  [0x428A2F98, 0x71374491, 0xB5C0FBCF, 0xE9B5DBA5,
   0x3956C25B, 0x59F111F1, 0x923F82A4, 0xAB1C5ED5,
   0xD807AA98, 0x12835B01, 0x243185BE, 0x550C7DC3,
   0x72BE5D74, 0x80DEB1FE, 0x9BDC06A7, 0xC19BF174,
   0xE49B69C1, 0xEFBE4786, 0x0FC19DC6, 0x240CA1CC,
   0x2DE92C6F, 0x4A7484AA, 0x5CB0A9DC, 0x76F988DA,
   0x983E5152, 0xA831C66D, 0xB00327C8, 0xBF597FC7,
   0xC6E00BF3, 0xD5A79147, 0x06CA6351, 0x14292967,
   0x27B70A85, 0x2E1B2138, 0x4D2C6DFC, 0x53380D13,
   0x650A7354, 0x766A0ABB, 0x81C2C92E, 0x92722C85,
   0xA2BFE8A1, 0xA81A664B, 0xC24B8B70, 0xC76C51A3,
   0xD192E819, 0xD6990624, 0xF40E3585, 0x106AA070,
   0x19A4C116, 0x1E376C08, 0x2748774C, 0x34B0BCB5,
   0x391C0CB3, 0x4ED8AA4A, 0x5B9CCA4F, 0x682E6FF3,
   0x748F82EE, 0x78A5636F, 0x84C87814, 0x8CC70208,
   0x90BEFFFA, 0xA4506CEB, 0xBEF9A3F7, 0xC67178F2]

/-- SHA-256 state: eight 32-bit words, listed `h0 .. h7`. -/
structure Sha256State where
  h0 : Nat
  h1 : Nat
  h2 : Nat
  h3 : Nat
  h4 : Nat
  h5 : Nat
  h6 : Nat
  h7 : Nat

/-- Initial SHA-256 chaining values. -/
def sha256Init : Sha256State :=
  ⟨0x6a09e667, 0xbb67ae85, 0x3c6ef372, 0xa54ff53a,
   0x510e527f, 0x9b05688c, 0x1f83d9ab, 0x5be0cd19⟩

/-- SHA-256 message schedule: extend 16 words to 64. -/
def sha256Schedule (w16 : List Nat) : List Nat :=
  (List.range 48).foldl
    (fun w _ =>
      let k := w.length
      let w15 := w.getD (k - 15) 0
      let w2 := w.getD (k - 2) 0
      let s0 := rotr32 7 w15 ^^^ rotr32 18 w15 ^^^ w15 / 2 ^ 3
      let s1 := rotr32 17 w2 ^^^ rotr32 19 w2 ^^^ w2 / 2 ^ 10
      w ++ [w32 (w.getD (k - 16) 0 + s0 + w.getD (k - 7) 0 + s1)])
    w16

/-- One SHA-256 round. -/
def sha256Round (st : Sha256State) (ki wi : Nat) : Sha256State :=
  let s1 := rotr32 6 st.h4 ^^^ rotr32 11 st.h4 ^^^ rotr32 25 st.h4
  let ch := (st.h4 &&& st.h5) ^^^ ((st.h4 ^^^ 0xFFFFFFFF) &&& st.h6)
  let t1 := w32 (st.h7 + s1 + ch + ki + wi)
  let s0 := rotr32 2 st.h0 ^^^ rotr32 13 st.h0 ^^^ rotr32 22 st.h0
  let maj := (st.h0 &&& st.h1) ^^^ (st.h0 &&& st.h2) ^^^ (st.h1 &&& st.h2)
  let t2 := w32 (s0 + maj)
  ⟨w32 (t1 + t2), st.h0, st.h1, st.h2, w32 (st.h3 + t1), st.h4, st.h5, st.h6⟩

/-- Process one 64-byte block. -/
def sha256Block (st : Sha256State) (block : List Nat) : Sha256State :=
  let w := sha256Schedule (toWords block)
  let r := (sha256K.zip w).foldl (fun s kw => sha256Round s kw.1 kw.2) st
  ⟨w32 (st.h0 + r.h0), w32 (st.h1 + r.h1), w32 (st.h2 + r.h2),
   w32 (st.h3 + r.h3), w32 (st.h4 + r.h4), w32 (st.h5 + r.h5),
   w32 (st.h6 + r.h6), w32 (st.h7 + r.h7)⟩

/-- SHA-256 of a byte sequence: a 32-byte digest. -/
def sha256 (msg : List Nat) : List Nat :=
  let f := (chunks64 (mdPad msg)).foldl sha256Block sha256Init
  be32 f.h0 ++ be32 f.h1 ++ be32 f.h2 ++ be32 f.h3 ++
    be32 f.h4 ++ be32 f.h5 ++ be32 f.h6 ++ be32 f.h7

/-! ## HMAC -/

/-- HMAC over a 64-byte-block hash function
(`crypto.createHmac(alg, key).update(msg).digest()`). -/
def hmac (hash : List Nat → List Nat) (key msg : List Nat) : List Nat :=
  let k0 := if 64 < key.length then hash key else key
  let kp := k0 ++ List.replicate (64 - k0.length) 0
  hash ((kp.map (· ^^^ 0x5c)) ++ hash ((kp.map (· ^^^ 0x36)) ++ msg))

/-- HMAC-SHA1: the default signing primitive of `sign`. -/
def hmacSha1 (key msg : List Nat) : List Nat := hmac sha1 key msg

/-- HMAC-SHA256: used by the double-HMAC constant-time comparison. -/
def hmacSha256 (key msg : List Nat) : List Nat := hmac sha256 key msg

/-! ## Base64 -/

/-- The standard base64 alphabet. -/
def b64Alphabet : List Char :=
  "ABCDEFGHIJKLMNOPQRSTUVWXYZabcdefghijklmnopqrstuvwxyz0123456789+/".data

/-- The alphabet character for a sextet. -/
def b64Char (i : Nat) : Char := b64Alphabet.getD i 'A'

/-- Standard base64 encoding with `=` padding
(`Buffer.from(bytes).toString('base64')`). -/
def b64Encode : List Nat → List Char
  | [] => []
  | [a] => [b64Char (a / 4), b64Char (a % 4 * 16), '=', '=']
  | [a, b] => [b64Char (a / 4), b64Char (a % 4 * 16 + b / 16),
               b64Char (b % 16 * 4), '=']
  | a :: b :: c :: rest =>
    b64Char (a / 4) :: b64Char (a % 4 * 16 + b / 16) ::
      b64Char (b % 16 * 4 + c / 64) :: b64Char (c % 64) :: b64Encode rest

/-- Map a UTF-16 code unit to its base64 sextet value, if it is an
alphabet character. -/
def b64SextetOfUnit (u : Nat) : Option Nat :=
  if 65 ≤ u ∧ u ≤ 90 then some (u - 65)
  else if 97 ≤ u ∧ u ≤ 122 then some (u - 97 + 26)
  else if 48 ≤ u ∧ u ≤ 57 then some (u - 48 + 52)
  else if u = 43 then some 62
  else if u = 47 then some 63
  else none

/-- Collect the sextets of a unit sequence, Node-style: non-alphabet
characters are ignored and `=` (unit 61) ends the data. -/
def b64Sextets : List Nat → List Nat
  | [] => []
  | u :: rest =>
    if u = 61 then []
    else match b64SextetOfUnit u with
      | some v => v :: b64Sextets rest
      | none => b64Sextets rest

/-- Pack sextets into bytes; a trailing partial group of `k` sextets
yields `⌊6k/8⌋` bytes. -/
def b64BytesOfSextets : List Nat → List Nat
  | s1 :: s2 :: s3 :: s4 :: rest =>
    (s1 * 4 + s2 / 16) :: (s2 % 16 * 16 + s3 / 4) :: (s3 % 4 * 64 + s4) ::
      b64BytesOfSextets rest
  | [s1, s2, s3] => [s1 * 4 + s2 / 16, s2 % 16 * 16 + s3 / 4]
  | [s1, s2] => [s1 * 4 + s2 / 16]
  | _ => []

/-- Node's lenient base64 decoding of a string, given as UTF-16 units
(`Buffer.from(s, 'base64')`). -/
def b64DecodeUnits (units : List Nat) : List Nat :=
  b64BytesOfSextets (b64Sextets units)

/-! ## Signing and verification engine (`util.ts` part) -/

/-- Post-processing applied by `sign` to the base64 digest:
`/` becomes `_`, `+` becomes `-`, `=` is deleted. -/
def signPost : List Char → List Char
  | [] => []
  | c :: rest =>
    (if c = '/' then ['_'] else if c = '+' then ['-']
     else if c = '=' then [] else [c]) ++ signPost rest

/-- `sign(data, key)` with the default options (`algorithm: 'sha1'`,
`encoding: 'base64'` — no call site in the repository passes options):
HMAC over the UTF-8 bytes, base64, then the URL-safe post-processing. -/
def sign (data key : String) : String :=
  String.mk (signPost (b64Encode (hmacSha1 (utf8Bytes key) (utf8Bytes data))))

/-- `bufferEqual(a, b)`: false on length mismatch, else a byte-by-byte
scan.  (The `crypto.timingSafeEqual` branch computes the same predicate;
timing is outside the model.) -/
def bufferEqual (a b : List Nat) : Bool :=
  if a.length ≠ b.length then false
  else (a.zip b).all fun p => p.1 == p.2

/-- `timeSafeCompare(a, b)`: Brad Hill's double-HMAC pattern.  The fresh
32-byte random comparison key drawn from `crypto.randomBytes(32)` is an
explicit parameter `randKey`; `String(a)` and `String(b)` are identities
on strings. -/
def timeSafeCompare (randKey : List Nat) (a b : String) : Bool :=
  let ah := hmacSha256 randKey (utf8Bytes a)
  let bh := hmacSha256 randKey (utf8Bytes b)
  bufferEqual ah bh && a == b

/-- `verify(key, data, signature)`: recompute the signature and compare
with `timeSafeCompare`. -/
def verify (randKey : List Nat) (key data signature : String) : Bool :=
  timeSafeCompare randKey signature (sign data key)

/-! ## Configuration accessors -/

/-- The process environment variables the library reads. -/
structure Env where
  secret : Option String := none
  cookieName : Option String := none

/-- Length of the signature digest, in characters (`SIGNATURE_DIGEST_LENGTH`). -/
def SIGNATURE_DIGEST_LENGTH : Nat := 27

/-- Name used for the session cookie if none provided. -/
def SESSION_COOKIE_NAME_DEFAULT : String := "session"

/-- `getSecretKey()`: reads `env.SESSION_COOKIE_SECRET`; fails when absent
(or empty, which is falsy) or shorter than 32 UTF-8 bytes. -/
def getSecretKey (env : Env) : Except String String :=
  match env.secret with
  | none => .error "SESSION_COOKIE_SECRET: No secret key provided."
  | some secret =>
    if secret = "" then .error "SESSION_COOKIE_SECRET: No secret key provided."
    else if byteLength secret < 32 then
      .error "SESSION_COOKIE_SECRET: The secret key must be at least 32 bytes long."
    else .ok secret

/-- Characters admitted in a cookie name by the `SESSION_COOKIE_NAME`
check: `A-Za-z0-9` and the RFC 6265 token specials. -/
def isCookieNameChar (c : Char) : Bool :=
  c.isAlphanum || "!#$%&*+-.^_|~".data.contains c ||
    c = Char.ofNat 39 || c = Char.ofNat 96

/-- `getCookieName()`: default `'session'`, overridable by
`env.SESSION_COOKIE_NAME`, which must be nonempty and match the token
character class (the source checks that the first maximal run of token
characters is the whole string, which holds iff every character is one). -/
def getCookieName (env : Env) : Except String String :=
  match env.cookieName with
  | none => .ok SESSION_COOKIE_NAME_DEFAULT
  | some nameFromEnv =>
    if nameFromEnv = "" then
      .error "SESSION_COOKIE_NAME cannot be an empty string."
    else if nameFromEnv.data.all isCookieNameChar then .ok nameFromEnv
    else .error "SESSION_COOKIE_NAME must only contain ASCII characters and no whitespace."

/-! ## Percent-decoding (`decodeURIComponent`) -/

/-- Hexadecimal digit value. -/
def hexVal (c : Char) : Option Nat :=
  if '0' ≤ c ∧ c ≤ '9' then some (c.toNat - 48)
  else if 'a' ≤ c ∧ c ≤ 'f' then some (c.toNat - 97 + 10)
  else if 'A' ≤ c ∧ c ≤ 'F' then some (c.toNat - 65 + 10)
  else none

/-- Strict UTF-8 decoding: fails on truncated, overlong, surrogate or
out-of-range sequences (the conditions under which `decodeURIComponent`
raises `URIError`). -/
def utf8DecodeStrict : List Nat → Option (List Char)
  | [] => some []
  | b :: rest =>
    if b < 0x80 then do pure (Char.ofNat b :: (← utf8DecodeStrict rest))
    else if b < 0xC2 then none
    else if b < 0xE0 then
      match rest with
      | b2 :: rest2 =>
        if 0x80 ≤ b2 ∧ b2 < 0xC0 then do
          pure (Char.ofNat ((b - 0xC0) * 64 + (b2 - 0x80)) ::
            (← utf8DecodeStrict rest2))
        else none
      | [] => none
    else if b < 0xF0 then
      match rest with
      | b2 :: b3 :: rest3 =>
        let n := (b - 0xE0) * 4096 + (b2 - 0x80) * 64 + (b3 - 0x80)
        if ((0x80 ≤ b2 ∧ b2 < 0xC0) ∧ (0x80 ≤ b3 ∧ b3 < 0xC0)) ∧
            0x800 ≤ n ∧ (n < 0xD800 ∨ 0xDFFF < n) then do
          pure (Char.ofNat n :: (← utf8DecodeStrict rest3))
        else none
      | _ => none
    else if b < 0xF5 then
      match rest with
      | b2 :: b3 :: b4 :: rest4 =>
        let n := (b - 0xF0) * 262144 + (b2 - 0x80) * 4096 +
          (b3 - 0x80) * 64 + (b4 - 0x80)
        if ((0x80 ≤ b2 ∧ b2 < 0xC0) ∧ (0x80 ≤ b3 ∧ b3 < 0xC0) ∧
            (0x80 ≤ b4 ∧ b4 < 0xC0)) ∧ 0x10000 ≤ n ∧ n < 0x110000 then do
          pure (Char.ofNat n :: (← utf8DecodeStrict rest4))
        else none
      | _ => none
    else none

/-- Translate a percent-encoded string to bytes: `%XX` groups become raw
bytes (failing on malformed groups), other characters contribute their
UTF-8 bytes. -/
def pctBytes : List Char → Option (List Nat)
  | [] => some []
  | '%' :: h1 :: h2 :: rest => do
    pure (((← hexVal h1) * 16 + (← hexVal h2)) :: (← pctBytes rest))
  | '%' :: _ => none
  | c :: rest => do pure (utf8EncodeChar c ++ (← pctBytes rest))

/-- `decodeURIComponent`: percent-decode, then strict UTF-8 decode.
A maximal `%XX` run is invalid UTF-8 exactly when the concatenated byte
string is, because raw characters never contribute continuation lead
bytes, so the two-phase formulation matches the JavaScript built-in. -/
def decodeURIComponent (s : String) : Except Unit String :=
  match pctBytes s.data with
  | none => .error ()
  | some bs =>
    match utf8DecodeStrict bs with
    | none => .error ()
    | some cs => .ok (String.mk cs)

/-- The codec's `decode`: skips the native call when the string has no
`%`, otherwise `decodeURIComponent`. -/
def jsDecode (str : String) : Except Unit String :=
  if str.data.contains '%' then decodeURIComponent str else .ok str

/-- `tryDecode(str, decode)`: a decode failure is caught and the raw
value returned. -/
def tryDecode (str : String) (dec : String → Except Unit String) : String :=
  match dec str with
  | .ok v => v
  | .error _ => str

/-! ## Cookie-header parsing (`parseCookie`) -/

/-- A value in the parsed cookie mapping: a string, or boolean `true` for
a flag-only segment. -/
inductive CVal where
  | vStr (s : String)
  | vTrue
deriving DecidableEq, Repr

/-- JavaScript `String.prototype.split` with a one-character separator:
`'a;;b'` gives `['a', '', 'b']`, the empty string gives `['']`. -/
def jsSplit (sep : Char) : List Char → List (List Char)
  | [] => [[]]
  | c :: rest =>
    if c = sep then [] :: jsSplit sep rest
    else match jsSplit sep rest with
      | g :: gs => (c :: g) :: gs
      | [] => [[c]]

/-- Whitespace trimmed by `String.prototype.trim` (the ASCII portion;
the exotic Unicode space characters are outside this model). -/
def jsIsWhitespace (c : Char) : Bool :=
  c = ' ' || c = '\t' || c = '\n' || c = '\r' ||
    c = Char.ofNat 0x0B || c = Char.ofNat 0x0C

/-- JavaScript `trim`: strip whitespace from both ends. -/
def jsTrim (cs : List Char) : List Char :=
  ((cs.dropWhile jsIsWhitespace).reverse.dropWhile jsIsWhitespace).reverse

/-- JavaScript object assignment `obj[k] = v`: replaces the value of an
existing key in place, otherwise appends the new key. -/
def objSet {α : Type} (m : List (String × α)) (k : String) (v : α) :
    List (String × α) :=
  match m with
  | [] => [(k, v)]
  | (k', v') :: rest =>
    if k' = k then (k, v) :: rest else (k', v') :: objSet rest k v

/-- One segment of a cookie header: trim, split on `'='`, take the first
two components.  `split[1]` is `undefined` when the segment has no `=`;
`tryDecode(undefined, dec)` then throws inside and returns `undefined`,
and `?? true` produces boolean `true`. -/
def parseCookieSegment (dec : String → Except Unit String)
    (acc : List (String × CVal)) (seg : List Char) : List (String × CVal) :=
  let splitParts := jsSplit '=' (jsTrim seg)
  let key := String.mk (splitParts.headD [])
  match splitParts.drop 1 with
  | v :: _ => objSet acc key (CVal.vStr (tryDecode (String.mk v) dec))
  | [] => objSet acc key CVal.vTrue

/-- `parseCookie(incomingCookies, decode?)`: split each header on `;`,
parse each segment, then spread-merge the per-header objects left to
right (later keys overwrite earlier ones). -/
def parseCookie (incomingCookies : List String)
    (dec : String → Except Unit String) : List (String × CVal) :=
  let parsedCookies := incomingCookies.map fun cookie =>
    (jsSplit ';' cookie.data).foldl (parseCookieSegment dec) []
  parsedCookies.foldl (fun acc m => m.foldl (fun a kv => objSet a kv.1 kv.2) acc) []

/-! ## JSON values and canonical serialization (`json-canon`)

Session payloads are JSON-serializable mappings.  Numbers are modelled as
integers (IEEE-754 doubles are outside the model); `json-canon` follows
RFC 8785: object keys are sorted by UTF-16 code units, strings are escaped
exactly as by `JSON.stringify`. -/

/-- A JSON value. -/
inductive JValue where
  | null
  | bool (b : Bool)
  | num (n : Int)
  | str (s : String)
  | arr (items : List JValue)
  | obj (members : List (String × JValue))

/-- Strict lexicographic order on unit lists. -/
def unitsLt : List Nat → List Nat → Bool
  | [], [] => false
  | [], _ :: _ => true
  | _ :: _, [] => false
  | x :: xs, y :: ys => if x < y then true else if y < x then false else unitsLt xs ys

/-- RFC 8785 key order: lexicographic on UTF-16 code units. -/
def keyLt (a b : String) : Bool := unitsLt (utf16Units a) (utf16Units b)

/-- Insert a key/value pair in front of the first strictly greater key. -/
def insKV {α : Type} (x : String × α) : List (String × α) → List (String × α)
  | [] => [x]
  | y :: rest => if keyLt x.1 y.1 then x :: y :: rest else y :: insKV x rest

/-- Insertion sort of key/value pairs by `keyLt`. -/
def sortKV {α : Type} (l : List (String × α)) : List (String × α) :=
  l.foldr insKV []

/-- Apply a function to every value of a key/value list. -/
def mapVal {α β : Type} (f : α → β) (l : List (String × α)) :
    List (String × β) :=
  l.map fun kv => (kv.1, f kv.2)

/-- Decimal digit character. -/
def digitChar (m : Nat) : Char := "0123456789".data.getD m '0'

/-- Decimal digits of a natural number. -/
def natChars (n : Nat) : List Char :=
  if n < 10 then [digitChar n]
  else natChars (n / 10) ++ [digitChar (n % 10)]
  termination_by n
  decreasing_by omega

/-- ES6 serialization of an integer. -/
def intChars (i : Int) : List Char :=
  if i < 0 then '-' :: natChars (-i).toNat else natChars i.toNat

/-- Lowercase hexadecimal digit. -/
def hexDigitChar (n : Nat) : Char := "0123456789abcdef".data.getD n '0'

/-- `JSON.stringify` string escaping for one character: `"` and `\`
get a backslash, the five named control escapes are used where they
exist, other control characters become `\u00xx`, everything else is
emitted verbatim. -/
def escChar (c : Char) : List Char :=
  if c = '"' then ['\\', '"']
  else if c = '\\' then ['\\', '\\']
  else if c.toNat = 8 then ['\\', 'b']
  else if c.toNat = 9 then ['\\', 't']
  else if c.toNat = 10 then ['\\', 'n']
  else if c.toNat = 12 then ['\\', 'f']
  else if c.toNat = 13 then ['\\', 'r']
  else if c.toNat < 0x20 then
    ['\\', 'u', '0', '0', hexDigitChar (c.toNat / 16), hexDigitChar (c.toNat % 16)]
  else [c]

/-- A JSON string literal: quoted and escaped. -/
def quoteChars (s : String) : List Char :=
  '"' :: (s.data.flatMap escChar ++ ['"'])

/-- Join rendered object members with `,`, each as `"key":value`. -/
def joinMembers : List (String × List Char) → List Char
  | [] => []
  | [(k, v)] => quoteChars k ++ ':' :: v
  | (k, v) :: rest => quoteChars k ++ ':' :: v ++ ',' :: joinMembers rest

mutual

/-- Characters of the canonical JSON serialization (`json-canon`'s
`stringify`): no whitespace, object keys sorted by UTF-16 code units. -/
def canonChars : JValue → List Char
  | .null => "null".data
  | .bool true => "true".data
  | .bool false => "false".data
  | .num n => intChars n
  | .str s => quoteChars s
  | .arr items => '[' :: (canonItems items ++ [']'])
  | .obj members =>
    '\x7b' :: (joinMembers (sortKV (renderMembers members)) ++ ['\x7d'])

/-- Comma-joined canonical serializations of array items. -/
def canonItems : List JValue → List Char
  | [] => []
  | [v] => canonChars v
  | v :: rest => canonChars v ++ ',' :: canonItems rest

/-- Canonical serialization of each member value, keys left in place. -/
def renderMembers : List (String × JValue) → List (String × List Char)
  | [] => []
  | (k, v) :: rest => (k, canonChars v) :: renderMembers rest

end

/-- `stringify` from `json-canon`. -/
def canonStringify (v : JValue) : String := String.mk (canonChars v)

mutual

/-- The canonical form of a JSON value: object keys recursively sorted.
Parsing the canonical serialization returns this value. -/
def canonJ : JValue → JValue
  | .null => .null
  | .bool b => .bool b
  | .num n => .num n
  | .str s => .str s
  | .arr items => .arr (canonJList items)
  | .obj ms => .obj (sortKV (canonJMembers ms))

/-- `canonJ` on each array item. -/
def canonJList : List JValue → List JValue
  | [] => []
  | v :: r => canonJ v :: canonJList r

/-- `canonJ` on each member value. -/
def canonJMembers : List (String × JValue) → List (String × JValue)
  | [] => []
  | (k, v) :: r => (k, canonJ v) :: canonJMembers r

end

/-- No string occurs twice in the list. -/
def distinctKeys : List String → Bool
  | [] => true
  | k :: rest => !rest.contains k && distinctKeys rest

mutual

/-- Well-formedness of a payload as a JavaScript value: every object has
distinct keys (JavaScript objects cannot carry duplicates). -/
def wfJ : JValue → Bool
  | .null => true
  | .bool _ => true
  | .num _ => true
  | .str _ => true
  | .arr items => wfJList items
  | .obj ms => distinctKeys (ms.map Prod.fst) && wfJMembers ms

/-- `wfJ` on each array item. -/
def wfJList : List JValue → Bool
  | [] => true
  | v :: r => wfJ v && wfJList r

/-- `wfJ` on each member value. -/
def wfJMembers : List (String × JValue) → Bool
  | [] => true
  | (_, v) :: r => wfJ v && wfJMembers r

end

mutual

/-- A size measure on JSON values used to budget the parser's fuel. -/
def jsizeV : JValue → Nat
  | .null => 1
  | .bool _ => 1
  | .num _ => 1
  | .str _ => 1
  | .arr items => 1 + jsizeL items
  | .obj ms => 1 + jsizeM ms

/-- Size of an array item list. -/
def jsizeL : List JValue → Nat
  | [] => 0
  | v :: r => 1 + jsizeV v + jsizeL r

/-- Size of an object member list. -/
def jsizeM : List (String × JValue) → Nat
  | [] => 0
  | (_, v) :: r => 1 + jsizeV v + jsizeM r

end

/-! ## JSON parsing (`JSON.parse`) -/

/-- JSON insignificant whitespace. -/
def isJsonWs (c : Char) : Bool :=
  c = ' ' || c = '\t' || c = '\n' || c = '\r'

/-- Skip insignificant whitespace. -/
def skipWs (cs : List Char) : List Char := cs.dropWhile isJsonWs

/-- Decimal digit? -/
def isDigitChar (c : Char) : Bool := 48 ≤ c.toNat && c.toNat ≤ 57

/-- Value of a digit string. -/
def digitsVal (ds : List Char) : Nat :=
  ds.foldl (fun acc c => acc * 10 + (c.toNat - 48)) 0

/-- Parse a nonempty run of digits.  (The fractional and exponent parts
of the JSON number grammar are outside the integer model.) -/
def parseNatTok (cs : List Char) : Except String (Nat × List Char) :=
  let ds := cs.takeWhile isDigitChar
  if ds.isEmpty then .error "expected digits"
  else .ok (digitsVal ds, cs.dropWhile isDigitChar)

/-- Unit value of a single-character escape. -/
def escUnit (e : Char) : Option Nat :=
  if e = '"' then some 34
  else if e = '\\' then some 92
  else if e = '/' then some 47
  else if e = 'b' then some 8
  else if e = 'f' then some 12
  else if e = 'n' then some 10
  else if e = 'r' then some 13
  else if e = 't' then some 9
  else none

/-- Parse a JSON string body (after the opening quote) to its UTF-16
units and the remaining input.  JavaScript strings are unit sequences;
surrogate pairs, escaped or raw, recombine in `utf16ToString`. -/
def parseStringBody : List Char → Except String (List Nat × List Char)
  | [] => .error "unterminated string"
  | c :: rest =>
    if c = '"' then .ok ([], rest)
    else if c = '\\' then
      match rest with
      | [] => .error "unterminated escape"
      | e :: rest2 =>
        if e = 'u' then
          match rest2 with
          | h1 :: h2 :: h3 :: h4 :: rest3 =>
            match hexVal h1, hexVal h2, hexVal h3, hexVal h4 with
            | some a, some b, some c4, some d => do
              let (us, r) ← parseStringBody rest3
              .ok ((a * 4096 + b * 256 + c4 * 16 + d) :: us, r)
            | _, _, _, _ => .error "invalid unicode escape"
          | _ => .error "invalid unicode escape"
        else
          match escUnit e with
          | some u => do
            let (us, r) ← parseStringBody rest2
            .ok (u :: us, r)
          | none => .error "invalid escape"
    else if c.toNat < 0x20 then .error "control character in string"
    else do
      let (us, r) ← parseStringBody rest
      .ok (charUnits c ++ us, r)
  termination_by cs => cs.length
  decreasing_by all_goals simp_arith [List.length_cons]

/-- JavaScript object construction from parsed members: assignment in
order, so a duplicate key keeps its first position but the last value. -/
def jsObjFromEntries (entries : List (String × JValue)) : List (String × JValue) :=
  entries.foldl (fun m kv => objSet m kv.1 kv.2) []

mutual

/-- Parse one JSON value.  The fuel argument only bounds nesting; every
recursive call consumes at least one input character, so `length + 1`
fuel never runs out (used by `jsonParse`). -/
def parseValue : Nat → List Char → Except String (JValue × List Char)
  | 0, _ => .error "input too deeply nested"
  | fuel + 1, cs =>
    match skipWs cs with
    | [] => .error "unexpected end of input"
    | c :: rest =>
      if c = '\x7b' then
        match skipWs rest with
        | '\x7d' :: rest2 => .ok (.obj [], rest2)
        | rest2 => do
          let (ms, r) ← parseMembers fuel rest2
          .ok (.obj (jsObjFromEntries ms), r)
      else if c = '[' then
        match skipWs rest with
        | ']' :: rest2 => .ok (.arr [], rest2)
        | rest2 => do
          let (items, r) ← parseItems fuel rest2
          .ok (.arr items, r)
      else if c = '"' then do
        let (us, r) ← parseStringBody rest
        .ok (.str (utf16ToString us), r)
      else if c = 'n' then
        match rest with
        | 'u' :: 'l' :: 'l' :: r => .ok (.null, r)
        | _ => .error "unexpected token"
      else if c = 't' then
        match rest with
        | 'r' :: 'u' :: 'e' :: r => .ok (.bool true, r)
        | _ => .error "unexpected token"
      else if c = 'f' then
        match rest with
        | 'a' :: 'l' :: 's' :: 'e' :: r => .ok (.bool false, r)
        | _ => .error "unexpected token"
      else if c = '-' then do
        let (n, r) ← parseNatTok rest
        .ok (.num (-(n : Int)), r)
      else if isDigitChar c then do
        let (n, r) ← parseNatTok (c :: rest)
        .ok (.num (n : Int), r)
      else .error "unexpected character"

/-- Parse the members of an object, positioned after `{` (and not at
`}`); consumes the closing brace. -/
def parseMembers : Nat → List Char →
    Except String (List (String × JValue) × List Char)
  | 0, _ => .error "input too deeply nested"
  | fuel + 1, cs =>
    match skipWs cs with
    | '"' :: rest => do
      let (us, r1) ← parseStringBody rest
      let key := utf16ToString us
      match skipWs r1 with
      | ':' :: r2 => do
        let (v, r3) ← parseValue fuel r2
        match skipWs r3 with
        | ',' :: r4 => do
          let (ms, r5) ← parseMembers fuel r4
          .ok ((key, v) :: ms, r5)
        | '\x7d' :: r4 => .ok ([(key, v)], r4)
        | _ => .error "expected comma or closing brace"
      | _ => .error "expected colon"
    | _ => .error "expected string key"

/-- Parse the items of an array, positioned after `[` (and not at `]`);
consumes the closing bracket. -/
def parseItems : Nat → List Char → Except String (List JValue × List Char)
  | 0, _ => .error "input too deeply nested"
  | fuel + 1, cs => do
    let (v, r1) ← parseValue fuel cs
    match skipWs r1 with
    | ',' :: r2 => do
      let (items, r3) ← parseItems fuel r2
      .ok (v :: items, r3)
    | ']' :: r2 => .ok ([v], r2)
    | _ => .error "expected comma or closing bracket"

end

/-- The characters that may legally follow a serialized value inside a
canonical JSON document: nothing, or a separator/closer. -/
def delimOk : List Char → Prop
  | [] => True
  | c :: _ => c = ',' ∨ c = '\x7d' ∨ c = ']'

/-- `JSON.parse`: parse one value, allow trailing whitespace only. -/
def jsonParse (s : String) : Except String JValue :=
  match parseValue (s.data.length + 1) s.data with
  | .ok (v, rest) => if (skipWs rest).isEmpty then .ok v
      else .error "unexpected trailing characters"
  | .error e => .error e

/-! ## Session codec (`createCookie`, `parseSession`, verification paths) -/

/-- `createCookie(newSessionData, secretKey?)`: canonical JSON, signed;
the cookie value is the signature concatenated with the base64 of the
payload.  `secretKey || getSecretKey()` falls back to the environment
when the argument is missing or empty (falsy). -/
def createCookie (newSessionData : JValue) (secretKey : Option String)
    (env : Env) : Except String String := do
  let key ← match secretKey with
    | some s => if s = "" then getSecretKey env else pure s
    | none => getSecretKey env
  let sessionAsJSON := canonStringify newSessionData
  pure (sign sessionAsJSON key ++ String.mk (b64Encode (utf8Bytes sessionAsJSON)))

/-- `parseSession(encodedSession)`: drop the 27-unit signature
(`substring(SIGNATURE_DIGEST_LENGTH)` counts UTF-16 units),
base64-decode the remainder, `JSON.parse` the UTF-8 text.  No signature
verification happens here. -/
def parseSession (encodedSession : String) : Except String JValue :=
  let data := (utf16Units encodedSession).drop SIGNATURE_DIGEST_LENGTH
  jsonParse (utf8Decode (b64DecodeUnits data))

/-- `verifySessionString(session)`: split at the fixed signature width,
decode the payload, verify with the environment key. -/
def verifySessionString (randKey : List Nat) (env : Env) (session : String) :
    Except String Bool :=
  let signature := utf16ToString ((utf16Units session).take SIGNATURE_DIGEST_LENGTH)
  let data := utf8Decode (b64DecodeUnits ((utf16Units session).drop SIGNATURE_DIGEST_LENGTH))
  do
    let key ← getSecretKey env
    pure (verify randKey key data signature)

/-- The part of a Netlify handler event this library reads:
`multiValueHeaders.Cookie` and `multiValueHeaders.cookie`. -/
structure HandlerEvent where
  headerCookieUpper : Option (List String) := none
  headerCookieLower : Option (List String) := none

/-- `getCookiesFromEvent(ev)`: the `Cookie` header values, capitalized
name first (`||` keeps an empty array, which is truthy). -/
def getCookiesFromEvent (ev : HandlerEvent) : Option (List String) :=
  ev.headerCookieUpper <|> ev.headerCookieLower

/-- `verifyCookieFromEvent(ev)`: false when no cookies or no session
cookie; a flag-only session cookie makes `substring` a `TypeError`;
otherwise split and verify.  Like every verification path that consults
the environment, it can also fail in `getSecretKey`/`getCookieName`. -/
def verifyCookieFromEvent (randKey : List Nat) (env : Env)
    (ev : HandlerEvent) : Except String Bool :=
  match getCookiesFromEvent ev with
  | none => .ok false
  | some cookies =>
    let cookieMap := parseCookie cookies jsDecode
    do
      let cookieName ← getCookieName env
      match cookieMap.lookup cookieName with
      | some (CVal.vStr s) =>
        if s = "" then .ok false
        else
          let signature := utf16ToString ((utf16Units s).take SIGNATURE_DIGEST_LENGTH)
          let data := utf8Decode (b64DecodeUnits ((utf16Units s).drop SIGNATURE_DIGEST_LENGTH))
          do
            let key ← getSecretKey env
            pure (verify randKey key data signature)
      | some CVal.vTrue => .error "TypeError: cookieMap[cookieName].substring is not a function"
      | none => .ok false

/-! ## Cookie attribute serialization (`serializeCookie`) -/

/-- RFC 7230 field-content check, the source's `fieldContentRegExp`
`^[\u0009 -~\u0080-ÿ]+$`: nonempty, every character a
horizontal tab, printable ASCII, or in the 0x80–0xFF range. -/
def fieldContentOk (s : String) : Bool :=
  s ≠ "" && s.data.all fun c =>
    c = '\t' || (0x20 ≤ c.toNat && c.toNat ≤ 0x7e) ||
      (0x80 ≤ c.toNat && c.toNat ≤ 0xff)

/-- Uppercase hexadecimal digit. -/
def hexDigitCharUpper (n : Nat) : Char := "0123456789ABCDEF".data.getD n '0'

/-- One character under `encodeURIComponent`: unreserved characters pass
through, anything else contributes `%XX` per UTF-8 byte. -/
def encodeURIChar (c : Char) : List Char :=
  if c.isAlphanum || "-_.!~*()".data.contains c || c = Char.ofNat 39 then [c]
  else (utf8EncodeChar c).flatMap fun b =>
    ['%', hexDigitCharUpper (b / 16), hexDigitCharUpper (b % 16)]

/-- The `encodeURIComponent` built-in. -/
def encodeURIComponent (s : String) : String :=
  String.mk (s.data.flatMap encodeURIChar)

/-- The module's default `encode`: percent-encoding. -/
def encode (val : String) : String := encodeURIComponent val

/-- A JavaScript value that may be a boolean or a string (the untyped
`sameSite` and `priority` options). -/
inductive JsStrBool where
  | jsB (b : Bool)
  | jsS (s : String)
deriving DecidableEq, Repr

/-- The options object of `serializeCookie`.  `expires` is an epoch
timestamp in milliseconds (a real `Date`, for which the source's
`isDate` and `isNaN` guards always pass). -/
structure CookieOpts where
  encode : Option (String → String) := none
  maxAge : Option Int := none
  domain : Option String := none
  path : Option String := none
  expires : Option Int := none
  httpOnly : Bool := false
  secure : Bool := false
  partitioned : Bool := false
  priority : Option JsStrBool := none
  sameSite : Option JsStrBool := none

/-- Two-digit zero-padded decimal. -/
def pad2 (n : Nat) : String :=
  if n < 10 then "0" ++ String.mk (natChars n) else String.mk (natChars n)

/-- `Date.prototype.toUTCString` for an epoch-milliseconds timestamp:
civil date via the standard days-from-epoch computation. -/
def jsUTCString (ms : Int) : String :=
  let days := Int.fdiv ms 86400000
  let secs := (Int.fmod ms 86400000).toNat / 1000
  let weekday := (Int.fmod (days + 4) 7).toNat
  let z := days + 719468
  let era := Int.fdiv z 146097
  let doe := (z - era * 146097).toNat
  let yoe := (doe - doe / 1460 + doe / 36524 - doe / 146096) / 365
  let doy := doe - (365 * yoe + yoe / 4 - yoe / 100)
  let mp := (5 * doy + 2) / 153
  let d := doy - (153 * mp + 2) / 5 + 1
  let m := if mp < 10 then mp + 3 else mp - 9
  let year := (yoe : Int) + era * 400 + (if m ≤ 2 then 1 else 0)
  let wdName := ["Sun", "Mon", "Tue", "Wed", "Thu", "Fri", "Sat"].getD weekday ""
  let moName := ["Jan", "Feb", "Mar", "Apr", "May", "Jun", "Jul", "Aug",
    "Sep", "Oct", "Nov", "Dec"].getD (m - 1) ""
  wdName ++ ", " ++ pad2 d ++ " " ++ moName ++ " " ++ String.mk (intChars year) ++
    " " ++ pad2 (secs / 3600) ++ ":" ++ pad2 (secs / 60 % 60) ++ ":" ++
    pad2 (secs % 60) ++ " GMT"

/-- The `Max-Age` segment: `opts.maxAge - 0`, `isNaN`, `isFinite` and
`Math.floor` are identities on integers. -/
def maxAgeSeg : Option Int → Except String String
  | none => .ok ""
  | some m => .ok ("; Max-Age=" ++ String.mk (intChars m))

/-- The `Domain` segment: skipped when falsy, validated as field-content. -/
def domainSeg : Option String → Except String String
  | none => .ok ""
  | some d =>
    if d = "" then .ok ""
    else if fieldContentOk d then .ok ("; Domain=" ++ d)
    else .error "option domain is invalid"

/-- The `Path` segment: skipped when falsy, validated as field-content. -/
def pathSeg : Option String → Except String String
  | none => .ok ""
  | some p =>
    if p = "" then .ok ""
    else if fieldContentOk p then .ok ("; Path=" ++ p)
    else .error "option path is invalid"

/-- The `Expires` segment: a `Date` object is always truthy; rendered
with `toUTCString`. -/
def expiresSeg : Option Int → Except String String
  | none => .ok ""
  | some e => .ok ("; Expires=" ++ jsUTCString e)

/-- ASCII lowercasing for one character. -/
def jsToLowerChar (c : Char) : Char :=
  if 'A' ≤ c ∧ c ≤ 'Z' then Char.ofNat (c.toNat + 32) else c

/-- `String.prototype.toLowerCase`, restricted to the ASCII range: the
observable part for the keyword comparisons below, since no non-ASCII
character lowercases into the ASCII keywords compared against. -/
def jsToLower (s : String) : String := String.mk (s.data.map jsToLowerChar)

/-- The `Priority` segment: strings are lowercased and must be one of
`low`/`medium`/`high`; any other truthy value throws. -/
def prioritySeg : Option JsStrBool → Except String String
  | none => .ok ""
  | some (.jsB false) => .ok ""
  | some (.jsB true) => .error "option priority is invalid"
  | some (.jsS s) =>
    if s = "" then .ok ""
    else
      let p := jsToLower s
      if p = "low" then .ok "; Priority=Low"
      else if p = "medium" then .ok "; Priority=Medium"
      else if p = "high" then .ok "; Priority=High"
      else .error "option priority is invalid"

/-- The `SameSite` segment: boolean `true` renders `Strict`; strings are
lowercased and must be `lax`/`strict`/`none`; any other truthy value
throws; falsy values are skipped. -/
def sameSiteSeg : Option JsStrBool → Except String String
  | none => .ok ""
  | some (.jsB false) => .ok ""
  | some (.jsB true) => .ok "; SameSite=Strict"
  | some (.jsS s) =>
    if s = "" then .ok ""
    else
      let ss := jsToLower s
      if ss = "lax" then .ok "; SameSite=Lax"
      else if ss = "strict" then .ok "; SameSite=Strict"
      else if ss = "none" then .ok "; SameSite=None"
      else .error "option sameSite is invalid"

/-- `serializeCookie(name, val, opts)`: validate the name, encode and
validate the value, then append each attribute segment in source order
(the first invalid attribute throws). -/
def serializeCookie (name val : String) (opts : CookieOpts) :
    Except String String := do
  let enc := opts.encode.getD encode
  if ¬ fieldContentOk name then .error "argument name is invalid" else
  let value := enc val
  if value ≠ "" ∧ ¬ fieldContentOk value then .error "argument val is invalid" else do
  let s1 ← maxAgeSeg opts.maxAge
  let s2 ← domainSeg opts.domain
  let s3 ← pathSeg opts.path
  let s4 ← expiresSeg opts.expires
  let s5 := if opts.httpOnly then "; HttpOnly" else ""
  let s6 := if opts.secure then "; Secure" else ""
  let s7 := if opts.partitioned then "; Partitioned" else ""
  let s8 ← prioritySeg opts.priority
  let s9 ← sameSiteSeg opts.sameSite
  pure (name ++ "=" ++ value ++ s1 ++ s2 ++ s3 ++ s4 ++ s5 ++ s6 ++ s7 ++ s8 ++ s9)

/-! ## Lemmas: the comparison engine -/

theorem zip_self_all (l : List Nat) :
    ((l.zip l).all fun p => p.1 == p.2) = true := by
  induction l with
  | nil => rfl
  | cons a t ih => simpa using ih

theorem bufferEqual_self (l : List Nat) : bufferEqual l l = true := by
  simp [bufferEqual, zip_self_all]

/-- `timeSafeCompare` computes string equality, whatever the random
comparison key: equal strings give equal HMACs, and the `a === b`
conjunct rules out digest collisions. -/
theorem timeSafeCompare_eq (rk : List Nat) (a b : String) :
    timeSafeCompare rk a b = (a == b) := by
  by_cases h : a = b
  · subst h
    simp [timeSafeCompare, bufferEqual_self]
  · have hb : (a == b) = false := by simpa using h
    simp [timeSafeCompare, hb]

/-- Verifying a freshly produced signature succeeds: `sign` is a
function of `(data, key)` alone. -/
theorem verify_sign (rk : List Nat) (key data : String) :
    verify rk key data (sign data key) = true := by
  simp [verify, timeSafeCompare_eq]

/-! ## Lemmas: digest shape -/

theorem sha1_length (msg : List Nat) : (sha1 msg).length = 20 := by
  simp [sha1, be32]

theorem sha1_bytes_lt (msg : List Nat) : ∀ b ∈ sha1 msg, b < 256 := by
  intro b hb
  simp [sha1, be32] at hb
  rcases hb with h | h | h | h | h | h | h | h | h | h | h | h | h | h | h | h | h | h | h | h <;>
    omega

theorem hmacSha1_length (key msg : List Nat) :
    (hmacSha1 key msg).length = 20 := sha1_length _

theorem hmacSha1_bytes_lt (key msg : List Nat) :
    ∀ b ∈ hmacSha1 key msg, b < 256 := sha1_bytes_lt _

theorem b64Char_ne_eq : ∀ i, i < 64 → b64Char i ≠ '=' := by decide

theorem itePost_length (c : Char) :
    (if c = '/' then ['_'] else if c = '+' then ['-'] else [c]).length = 1 := by
  by_cases h1 : c = '/' <;> by_cases h2 : c = '+' <;> simp [h1, h2]

/-- Each character of `signPost`'s output counts once, except that `=`
is deleted. -/
theorem signPost_length_cons (c : Char) (rest : List Char) :
    (signPost (c :: rest)).length =
      (if c = '=' then 0 else 1) + (signPost rest).length := by
  by_cases h1 : c = '/' <;> by_cases h2 : c = '+' <;> by_cases h3 : c = '=' <;>
    simp_all [signPost] <;> omega

/-- Length of the post-processed base64 of a byte string: `⌈8n/6⌉`. -/
theorem signPost_b64_length (bs : List Nat) (hb : ∀ x ∈ bs, x < 256) :
    (signPost (b64Encode bs)).length = (4 * bs.length + 2) / 3 := by
  induction bs using b64Encode.induct with
  | case1 => rfl
  | case2 a =>
    have ha : a < 256 := hb a (by simp)
    have h1 : a / 4 < 64 := by omega
    have h2 : a % 4 * 16 < 64 := by omega
    simp [b64Encode, signPost_length_cons, b64Char_ne_eq _ h1, b64Char_ne_eq _ h2,
      signPost, itePost_length]
  | case3 a b =>
    have ha : a < 256 := hb a (by simp)
    have hbb : b < 256 := hb b (by simp)
    have h1 : a / 4 < 64 := by omega
    have h2 : a % 4 * 16 + b / 16 < 64 := by omega
    have h3 : b % 16 * 4 < 64 := by omega
    simp [b64Encode, signPost_length_cons, b64Char_ne_eq _ h1, b64Char_ne_eq _ h2,
      b64Char_ne_eq _ h3, signPost, itePost_length]
  | case4 a b c rest ih =>
    have ha : a < 256 := hb a (by simp)
    have hbb : b < 256 := hb b (by simp)
    have hc : c < 256 := hb c (by simp)
    have h1 : a / 4 < 64 := by omega
    have h2 : a % 4 * 16 + b / 16 < 64 := by omega
    have h3 : b % 16 * 4 + c / 64 < 64 := by omega
    have h4 : c % 64 < 64 := by omega
    have ih' := ih (fun x hx => hb x (by simp [hx]))
    simp only [b64Encode, signPost_length_cons, b64Char_ne_eq _ h1,
      b64Char_ne_eq _ h2, b64Char_ne_eq _ h3, b64Char_ne_eq _ h4, if_false, ih',
      List.length_cons]
    omega

/-- No character of `signPost`'s output is `/`, `+` or `=`. -/
theorem signPost_no_bad (cs : List Char) :
    ((signPost cs).all fun c => !(c == '/' || c == '+' || c == '=')) = true := by
  induction cs with
  | nil => rfl
  | cons c rest ih =>
    by_cases h1 : c = '/'
    · simpa [signPost, h1] using ih
    · by_cases h2 : c = '+'
      · simpa [signPost, h1, h2] using ih
      · by_cases h3 : c = '='
        · simpa [signPost, h1, h2, h3] using ih
        · simpa [signPost, h1, h2, h3] using ih

/-- The signature string has exactly 27 characters under the default
sha1/base64 configuration: 20 digest bytes give 28 base64 characters of
which exactly one is padding. -/
theorem sign_length (data key : String) : (sign data key).length = 27 := by
  have h := signPost_b64_length (hmacSha1 (utf8Bytes key) (utf8Bytes data))
    (hmacSha1_bytes_lt _ _)
  rw [hmacSha1_length] at h
  simp [sign, String.length, h]

/-! ## Lemmas: the secret-key accessor -/

theorem getSecretKey_missing (n : Option String) :
    getSecretKey ⟨none, n⟩ = .error "SESSION_COOKIE_SECRET: No secret key provided." := rfl

theorem getSecretKey_short (s : String) (n : Option String)
    (h : byteLength s < 32) : ∃ e, getSecretKey ⟨some s, n⟩ = .error e := by
  by_cases he : s = ""
  · exact ⟨"SESSION_COOKIE_SECRET: No secret key provided.",
      by simp [getSecretKey, he]⟩
  · exact ⟨"SESSION_COOKIE_SECRET: The secret key must be at least 32 bytes long.",
      by simp [getSecretKey, he, h]⟩

theorem getSecretKey_ok (s : String) (n : Option String)
    (h : 32 ≤ byteLength s) : getSecretKey ⟨some s, n⟩ = .ok s := by
  have he : s ≠ "" := by
    intro hs
    rw [hs] at h
    simp [byteLength, utf8Bytes] at h
  simp [getSecretKey, he]
  omega

/-! ## Lemmas: cookie-header splitting -/

theorem dropWhile_id {p : Char → Bool} (cs : List Char)
    (h : ∀ c ∈ cs, p c = false) : cs.dropWhile p = cs := by
  cases cs with
  | nil => rfl
  | cons c rest => simp [List.dropWhile, h c (by simp)]

theorem jsTrim_id (cs : List Char) (h : ∀ c ∈ cs, jsIsWhitespace c = false) :
    jsTrim cs = cs := by
  unfold jsTrim
  rw [dropWhile_id cs h, dropWhile_id, List.reverse_reverse]
  intro c hc
  exact h c (by simpa using hc)

theorem jsSplit_no_sep (sep : Char) (cs : List Char)
    (h : ∀ c ∈ cs, c ≠ sep) : jsSplit sep cs = [cs] := by
  induction cs with
  | nil => rfl
  | cons c rest ih =>
    have hc : c ≠ sep := h c (by simp)
    have := ih fun x hx => h x (by simp [hx])
    simp [jsSplit, hc, this]

theorem jsSplit_append (sep : Char) (xs ys : List Char)
    (h : ∀ c ∈ xs, c ≠ sep) :
    jsSplit sep (xs ++ sep :: ys) = xs :: jsSplit sep ys := by
  induction xs with
  | nil => simp [jsSplit]
  | cons c rest ih =>
    have hc : c ≠ sep := h c (by simp)
    have := ih fun x hx => h x (by simp [hx])
    simp [jsSplit, hc, this]

/-- The general shape of a one-header, one-segment parse where the value
part contains a second `=`: the text after it is dropped.  The segment
`k=v=w` maps `k` to (the decode attempt of) `v` alone. -/
theorem parseCookie_two_eq (k v w : List Char) (dec : String → Except Unit String)
    (hk : ∀ c ∈ k, c ≠ ';' ∧ c ≠ '=' ∧ jsIsWhitespace c = false)
    (hv : ∀ c ∈ v, c ≠ ';' ∧ c ≠ '=' ∧ jsIsWhitespace c = false)
    (hw : ∀ c ∈ w, c ≠ ';' ∧ c ≠ '=' ∧ jsIsWhitespace c = false) :
    parseCookie [String.mk (k ++ '=' :: (v ++ '=' :: w))] dec =
      [(String.mk k, CVal.vStr (tryDecode (String.mk v) dec))] := by
  have hno : ∀ c ∈ k ++ '=' :: (v ++ '=' :: w), c ≠ ';' := by
    intro c hc
    simp [List.mem_append] at hc
    rcases hc with h | h | h | h | h
    · exact (hk c h).1
    · subst h; decide
    · exact (hv c h).1
    · subst h; decide
    · exact (hw c h).1
  have hnw : ∀ c ∈ k ++ '=' :: (v ++ '=' :: w), jsIsWhitespace c = false := by
    intro c hc
    simp [List.mem_append] at hc
    rcases hc with h | h | h | h | h
    · exact (hk c h).2.2
    · subst h; decide
    · exact (hv c h).2.2
    · subst h; decide
    · exact (hw c h).2.2
  have hsplit : jsSplit '=' (k ++ '=' :: (v ++ '=' :: w)) = [k, v, w] := by
    rw [jsSplit_append '=' k _ (fun c hc => (hk c hc).2.1),
      jsSplit_append '=' v _ (fun c hc => (hv c hc).2.1),
      jsSplit_no_sep '=' w (fun c hc => (hw c hc).2.1)]
  unfold parseCookie
  simp only [List.map_cons, List.map_nil]
  rw [jsSplit_no_sep ';' _ hno]
  simp only [List.foldl_cons, List.foldl_nil]
  unfold parseCookieSegment
  rw [jsTrim_id _ hnw, hsplit]
  rfl

/-! ## Lemmas: serializeCookie -/

/-- With name `a`, value `b` and only `sameSite` set, everything up to
the `SameSite` segment is fixed. -/
theorem serializeCookie_ab_sameSite (x : Option JsStrBool) :
    serializeCookie "a" "b" { sameSite := x } =
      (sameSiteSeg x).bind fun s9 => .ok ("a=b" ++ s9) := rfl

/-! ## Lemmas: parseSession on short input -/

theorem parseValue_nil (fuel : Nat) :
    parseValue (fuel + 1) [] = .error "unexpected end of input" := by
  simp [parseValue, skipWs]

theorem jsonParse_nil :
    jsonParse (String.mk []) = .error "unexpected end of input" := by
  have h : (String.mk []).data = [] := rfl
  simp [jsonParse, h, parseValue_nil]

theorem parseSession_short (s : String) (h : utf16Length s ≤ 27) :
    parseSession s = .error "unexpected end of input" := by
  unfold parseSession
  have hd : (utf16Units s).drop SIGNATURE_DIGEST_LENGTH = [] := by
    apply List.drop_eq_nil_of_le
    simpa [utf16Length, SIGNATURE_DIGEST_LENGTH] using h
  rw [hd]
  show jsonParse (utf8Decode (b64DecodeUnits [])) = _
  have hb : b64DecodeUnits [] = [] := rfl
  have hua : utf8DecodeAux [] = [] := by simp [utf8DecodeAux]
  have hu : utf8Decode [] = String.mk [] := by simp [utf8Decode, hua]
  rw [hb, hu, jsonParse_nil]

/-! ## Lemmas: Unicode round trips -/

theorem char_toNat_valid (c : Char) :
    c.toNat < 0xD800 ∨ (0xDFFF < c.toNat ∧ c.toNat < 0x110000) := by
  have h := c.valid
  simp [UInt32.isValidChar, Nat.isValidChar, Char.toNat] at h ⊢
  exact h

theorem mkChar_toNat (c : Char) : mkChar c.toNat = c := by
  have h := char_toNat_valid c
  simp only [mkChar, if_pos h]
  exact Char.ofNat_toNat c

theorem string_mk_data (s : String) : String.mk s.data = s := by
  cases s
  rfl

theorem utf16ToString_go_charUnits (cs : List Char) :
    utf16ToString.go (cs.flatMap charUnits) = cs := by
  induction cs with
  | nil => simp [utf16ToString.go]
  | cons c rest ih =>
    have hv := char_toNat_valid c
    by_cases h : c.toNat < 0x10000
    · have hns : ¬(0xD800 ≤ c.toNat ∧ c.toNat < 0xDC00) := by omega
      simp only [List.flatMap_cons, charUnits, if_pos h, List.singleton_append,
        List.append_assoc]
      rw [utf16ToString.go.eq_def]
      simp [hns, mkChar_toNat, ih]
    · have h1 : 0xD800 ≤ 0xD800 + (c.toNat - 0x10000) / 0x400 ∧
          0xD800 + (c.toNat - 0x10000) / 0x400 < 0xDC00 := by omega
      have h2 : 0xDC00 ≤ 0xDC00 + (c.toNat - 0x10000) % 0x400 ∧
          0xDC00 + (c.toNat - 0x10000) % 0x400 < 0xE000 := by omega
      have h3 : 0x10000 + (0xD800 + (c.toNat - 0x10000) / 0x400 - 0xD800) * 0x400 +
          (0xDC00 + (c.toNat - 0x10000) % 0x400 - 0xDC00) = c.toNat := by omega
      simp only [List.flatMap_cons, charUnits, if_neg h, List.cons_append,
        List.nil_append]
      rw [utf16ToString.go.eq_def]
      simp only [if_pos h1]
      simp only [if_pos h2, h3, mkChar_toNat, ih]

theorem utf16ToString_units (s : String) : utf16ToString (utf16Units s) = s := by
  unfold utf16ToString utf16Units
  rw [utf16ToString_go_charUnits, string_mk_data]

theorem utf8DecodeAux_enc_cons (c : Char) (rest : List Nat) :
    utf8DecodeAux (utf8EncodeChar c ++ rest) = c :: utf8DecodeAux rest := by
  have hv := char_toNat_valid c
  by_cases h1 : c.toNat < 0x80
  · simp only [utf8EncodeChar, if_pos h1, List.singleton_append]
    rw [utf8DecodeAux.eq_def]
    have hs : utf8Step c.toNat rest = (mkChar c.toNat, rest) := by
      simp [utf8Step, h1]
    simp [hs, mkChar_toNat]
  · by_cases h2 : c.toNat < 0x800
    · simp only [utf8EncodeChar, if_neg h1, if_pos h2, List.cons_append,
        List.nil_append]
      rw [utf8DecodeAux.eq_def]
      have ha : ¬(0xC0 + c.toNat / 64 < 0x80) := by omega
      have hb : ¬(0xC0 + c.toNat / 64 < 0xC0) := by omega
      have hc : 0xC0 + c.toNat / 64 < 0xE0 := by omega
      have hd : 0x80 ≤ 0x80 + c.toNat % 64 ∧ 0x80 + c.toNat % 64 < 0xC0 := by omega
      have he : (0xC0 + c.toNat / 64 - 0xC0) * 64 + (0x80 + c.toNat % 64 - 0x80) =
          c.toNat := by omega
      have hs : utf8Step (0xC0 + c.toNat / 64) ((0x80 + c.toNat % 64) :: rest) =
          (mkChar c.toNat, rest) := by
        simp only [utf8Step, if_neg ha, if_neg hb, if_pos hc, if_pos hd, he]
      simp [hs, mkChar_toNat]
    · by_cases h3 : c.toNat < 0x10000
      · simp only [utf8EncodeChar, if_neg h1, if_neg h2, if_pos h3,
          List.cons_append, List.nil_append]
        rw [utf8DecodeAux.eq_def]
        have ha : ¬(0xE0 + c.toNat / 4096 < 0x80) := by omega
        have hb : ¬(0xE0 + c.toNat / 4096 < 0xC0) := by omega
        have hc : ¬(0xE0 + c.toNat / 4096 < 0xE0) := by omega
        have hd : 0xE0 + c.toNat / 4096 < 0xF0 := by omega
        have he : (0x80 ≤ 0x80 + c.toNat / 64 % 64 ∧ 0x80 + c.toNat / 64 % 64 < 0xC0) ∧
            0x80 ≤ 0x80 + c.toNat % 64 ∧ 0x80 + c.toNat % 64 < 0xC0 := by omega
        have hf : (0xE0 + c.toNat / 4096 - 0xE0) * 4096 +
            (0x80 + c.toNat / 64 % 64 - 0x80) * 64 + (0x80 + c.toNat % 64 - 0x80) =
            c.toNat := by omega
        have hs : utf8Step (0xE0 + c.toNat / 4096)
            ((0x80 + c.toNat / 64 % 64) :: (0x80 + c.toNat % 64) :: rest) =
            (mkChar c.toNat, rest) := by
          simp only [utf8Step, if_neg ha, if_neg hb, if_neg hc, if_pos hd,
            if_pos he, hf]
        simp [hs, mkChar_toNat]
      · simp only [utf8EncodeChar, if_neg h1, if_neg h2, if_neg h3,
          List.cons_append, List.nil_append]
        rw [utf8DecodeAux.eq_def]
        have hlt : c.toNat < 0x110000 := by omega
        have ha : ¬(0xF0 + c.toNat / 262144 < 0x80) := by omega
        have hb : ¬(0xF0 + c.toNat / 262144 < 0xC0) := by omega
        have hc : ¬(0xF0 + c.toNat / 262144 < 0xE0) := by omega
        have hd : ¬(0xF0 + c.toNat / 262144 < 0xF0) := by omega
        have hd2 : 0xF0 + c.toNat / 262144 < 0xF8 := by omega
        have he : (0x80 ≤ 0x80 + c.toNat / 4096 % 64 ∧
              0x80 + c.toNat / 4096 % 64 < 0xC0) ∧
            (0x80 ≤ 0x80 + c.toNat / 64 % 64 ∧ 0x80 + c.toNat / 64 % 64 < 0xC0) ∧
            0x80 ≤ 0x80 + c.toNat % 64 ∧ 0x80 + c.toNat % 64 < 0xC0 := by omega
        have hf : (0xF0 + c.toNat / 262144 - 0xF0) * 262144 +
            (0x80 + c.toNat / 4096 % 64 - 0x80) * 4096 +
            (0x80 + c.toNat / 64 % 64 - 0x80) * 64 + (0x80 + c.toNat % 64 - 0x80) =
            c.toNat := by omega
        have hs : utf8Step (0xF0 + c.toNat / 262144)
            ((0x80 + c.toNat / 4096 % 64) :: (0x80 + c.toNat / 64 % 64) ::
              (0x80 + c.toNat % 64) :: rest) = (mkChar c.toNat, rest) := by
          simp only [utf8Step, if_neg ha, if_neg hb, if_neg hc, if_neg hd,
            if_pos hd2, if_pos he, hf]
        simp [hs, mkChar_toNat]

theorem utf8DecodeAux_enc (cs : List Char) :
    utf8DecodeAux (cs.flatMap utf8EncodeChar) = cs := by
  induction cs with
  | nil => simp [utf8DecodeAux]
  | cons c rest ih => simp [utf8DecodeAux_enc_cons, ih]

/-- Node's UTF-8 decoding inverts UTF-8 encoding. -/
theorem utf8Decode_bytes (s : String) : utf8Decode (utf8Bytes s) = s := by
  unfold utf8Decode utf8Bytes
  rw [utf8DecodeAux_enc, string_mk_data]

/-! ## Lemmas: base64 round trip -/

theorem b64Char_lt_of_lt : ∀ i, i < 64 → (b64Char i).toNat < 128 := by decide

theorem b64Char_ascii (i : Nat) : (b64Char i).toNat < 128 := by
  by_cases h : i < 64
  · exact b64Char_lt_of_lt i h
  · have hlen : b64Alphabet.length ≤ i := by
      simp [b64Alphabet]
      omega
    simp [b64Char, List.getD]
    rw [List.getElem?_eq_none hlen]
    decide

theorem b64_unit_facts : ∀ i, i < 64 →
    ((b64Char i).toNat ≠ 61 ∧ b64SextetOfUnit ((b64Char i).toNat) = some i) := by
  decide

theorem b64Encode_ascii (bs : List Nat) :
    ∀ c ∈ b64Encode bs, c.toNat < 128 := by
  induction bs using b64Encode.induct with
  | case1 => simp [b64Encode]
  | case2 a =>
    intro c hc
    simp [b64Encode] at hc
    rcases hc with rfl | rfl | rfl
    all_goals first | exact b64Char_ascii _ | decide
  | case3 a b =>
    intro c hc
    simp [b64Encode] at hc
    rcases hc with rfl | rfl | rfl | rfl
    all_goals first | exact b64Char_ascii _ | decide
  | case4 a b c rest ih =>
    intro x hx
    simp [b64Encode] at hx
    rcases hx with rfl | rfl | rfl | rfl | hx
    all_goals first | exact b64Char_ascii _ | exact ih x hx

theorem flatMap_charUnits_of_ascii (cs : List Char)
    (h : ∀ c ∈ cs, c.toNat < 128) :
    cs.flatMap charUnits = cs.map Char.toNat := by
  induction cs with
  | nil => rfl
  | cons c rest ih =>
    have hc : c.toNat < 0x10000 := by have := h c (by simp); omega
    have ih' := ih fun x hx => h x (by simp [hx])
    simp [charUnits, hc, ih']

theorem b64Sextets_cons_char (i : Nat) (h : i < 64) (us : List Nat) :
    b64Sextets ((b64Char i).toNat :: us) = i :: b64Sextets us := by
  obtain ⟨hne, hsx⟩ := b64_unit_facts i h
  simp [b64Sextets, hne, hsx]

theorem b64_decode_map_encode (bs : List Nat) (hb : ∀ x ∈ bs, x < 256) :
    b64DecodeUnits ((b64Encode bs).map Char.toNat) = bs := by
  induction bs using b64Encode.induct with
  | case1 => rfl
  | case2 a =>
    have ha : a < 256 := hb a (by simp)
    simp only [b64Encode, List.map_cons, List.map_nil]
    rw [b64DecodeUnits, b64Sextets_cons_char _ (by omega),
      b64Sextets_cons_char _ (by omega)]
    show b64BytesOfSextets (a / 4 :: a % 4 * 16 :: b64Sextets (61 :: [61])) = [a]
    rw [show b64Sextets (61 :: [61]) = [] by simp [b64Sextets]]
    simp [b64BytesOfSextets]
    omega
  | case3 a b =>
    have ha : a < 256 := hb a (by simp)
    have hbb : b < 256 := hb b (by simp)
    simp only [b64Encode, List.map_cons, List.map_nil]
    rw [b64DecodeUnits, b64Sextets_cons_char _ (by omega),
      b64Sextets_cons_char _ (by omega), b64Sextets_cons_char _ (by omega)]
    show b64BytesOfSextets
      (a / 4 :: (a % 4 * 16 + b / 16) :: b % 16 * 4 :: b64Sextets [61]) = [a, b]
    rw [show b64Sextets [61] = [] by simp [b64Sextets]]
    simp [b64BytesOfSextets, List.cons.injEq]
    omega
  | case4 a b c rest ih =>
    have ha : a < 256 := hb a (by simp)
    have hbb : b < 256 := hb b (by simp)
    have hc : c < 256 := hb c (by simp)
    have ih' := ih fun x hx => hb x (by simp [hx])
    simp only [b64Encode, List.map_cons]
    rw [b64DecodeUnits, b64Sextets_cons_char _ (by omega),
      b64Sextets_cons_char _ (by omega), b64Sextets_cons_char _ (by omega),
      b64Sextets_cons_char _ (by omega)]
    rw [show ∀ s1 s2 s3 s4 srest, b64BytesOfSextets (s1 :: s2 :: s3 :: s4 :: srest) =
      (s1 * 4 + s2 / 16) :: (s2 % 16 * 16 + s3 / 4) :: (s3 % 4 * 64 + s4) ::
        b64BytesOfSextets srest from fun _ _ _ _ _ => rfl]
    rw [b64DecodeUnits] at ih'
    rw [ih']
    simp only [List.cons.injEq]
    refine ⟨by omega, by omega, by omega, trivial⟩

/-- Node base64 decoding of the encoded string's UTF-16 units inverts
the encoding. -/
theorem b64_roundtrip (bs : List Nat) (hb : ∀ x ∈ bs, x < 256) :
    b64DecodeUnits (utf16Units (String.mk (b64Encode bs))) = bs := by
  have hd : (String.mk (b64Encode bs)).data = b64Encode bs := rfl
  rw [utf16Units, hd, flatMap_charUnits_of_ascii _ (b64Encode_ascii bs),
    b64_decode_map_encode bs hb]

/-! ## Lemmas: JSON tokens -/

theorem digitChar_facts : ∀ m, m < 10 →
    isDigitChar (digitChar m) = true ∧ (digitChar m).toNat = 48 + m := by
  decide

theorem natChars_props (n : Nat) :
    natChars n ≠ [] ∧ ∀ c ∈ natChars n, isDigitChar c = true := by
  induction n using natChars.induct with
  | case1 n h =>
    refine ⟨by simp [natChars, h], ?_⟩
    intro c hc
    simp [natChars, h] at hc
    subst hc
    exact (digitChar_facts n h).1
  | case2 n h ih =>
    refine ⟨?_, ?_⟩
    · rw [natChars, if_neg h]
      simp
    · intro c hc
      rw [natChars, if_neg h] at hc
      simp at hc
      rcases hc with hc | rfl
      · exact ih.2 c hc
      · exact (digitChar_facts _ (by omega)).1

theorem digitsVal_append_digit (xs : List Char) (c : Char) :
    digitsVal (xs ++ [c]) = digitsVal xs * 10 + (c.toNat - 48) := by
  simp [digitsVal, List.foldl_append]

theorem digitsVal_natChars (n : Nat) : digitsVal (natChars n) = n := by
  induction n using natChars.induct with
  | case1 n h =>
    have hd := (digitChar_facts n h).2
    simp [natChars, h, digitsVal]
    omega
  | case2 n h ih =>
    have hd := (digitChar_facts (n % 10) (by omega)).2
    rw [natChars, if_neg h, digitsVal_append_digit, ih, hd]
    omega

theorem takeWhile_digits (ds rest : List Char)
    (hds : ∀ c ∈ ds, isDigitChar c = true)
    (hr : ∀ c cs, rest = c :: cs → isDigitChar c = false) :
    (ds ++ rest).takeWhile isDigitChar = ds ∧
      (ds ++ rest).dropWhile isDigitChar = rest := by
  induction ds with
  | nil =>
    cases rest with
    | nil => simp
    | cons c r =>
      simp only [List.nil_append]
      simp [List.takeWhile_cons, List.dropWhile_cons, hr c r rfl]
  | cons d ds' ih =>
    have hd := hds d (by simp)
    have ih' := ih fun c hc => hds c (by simp [hc])
    simp [List.takeWhile_cons, List.dropWhile_cons, hd, ih'.1, ih'.2]

theorem parseNatTok_natChars (n : Nat) (rest : List Char)
    (hr : ∀ c cs, rest = c :: cs → isDigitChar c = false) :
    parseNatTok (natChars n ++ rest) = .ok (n, rest) := by
  obtain ⟨hne, hdig⟩ := natChars_props n
  obtain ⟨ht, hd⟩ := takeWhile_digits (natChars n) rest hdig hr
  have hemp : (natChars n).isEmpty = false := by
    cases h : natChars n with
    | nil => exact absurd h hne
    | cons a l => rfl
  simp [parseNatTok, ht, hd, hemp, digitsVal_natChars]

theorem hexVal_hexDigitChar : ∀ m, m < 16 → hexVal (hexDigitChar m) = some m := by
  decide

theorem charUnits_bmp (c : Char) (h : c.toNat < 0x10000) :
    charUnits c = [c.toNat] := by
  simp [charUnits, h]

theorem except_bind_ok {ε α β : Type} (a : α) (f : α → Except ε β) :
    (Except.ok a : Except ε α) >>= f = f a := rfl

theorem parseStringBody_close (rest : List Char) :
    parseStringBody ('"' :: rest) = .ok ([], rest) := by
  rw [parseStringBody.eq_def]
  simp

theorem parseStringBody_esc (e : Char) (u : Nat) (he : escUnit e = some u)
    (hne : e ≠ 'u') (tail : List Char) :
    parseStringBody ('\\' :: e :: tail) =
      (parseStringBody tail).bind fun p => .ok (u :: p.1, p.2) := by
  rw [parseStringBody.eq_def]
  simp [hne, he]
  cases parseStringBody tail <;> rfl

theorem parseStringBody_u (h1 h2 h3 h4 : Char) (a b c4 d : Nat)
    (e1 : hexVal h1 = some a) (e2 : hexVal h2 = some b)
    (e3 : hexVal h3 = some c4) (e4 : hexVal h4 = some d) (tail : List Char) :
    parseStringBody ('\\' :: 'u' :: h1 :: h2 :: h3 :: h4 :: tail) =
      (parseStringBody tail).bind fun p =>
        .ok ((a * 4096 + b * 256 + c4 * 16 + d) :: p.1, p.2) := by
  rw [parseStringBody.eq_def]
  simp [e1, e2, e3, e4]
  cases parseStringBody tail <;> rfl

theorem parseStringBody_lit (c : Char) (hq : c ≠ '"') (hb : c ≠ '\\')
    (hc : ¬c.toNat < 0x20) (tail : List Char) :
    parseStringBody (c :: tail) =
      (parseStringBody tail).bind fun p => .ok (charUnits c ++ p.1, p.2) := by
  rw [parseStringBody.eq_def]
  simp [hq, hb, hc]
  cases parseStringBody tail <;> rfl

/-- Parsing a JSON string body inverts `JSON.stringify` escaping: the
escaped characters followed by a closing quote parse back to the
characters' UTF-16 units. -/
theorem parseStringBody_quote (cs : List Char) (rest : List Char) :
    parseStringBody (cs.flatMap escChar ++ '"' :: rest) =
      .ok (cs.flatMap charUnits, rest) := by
  induction cs with
  | nil => simpa using parseStringBody_close rest
  | cons c cs' ih =>
    simp only [List.flatMap_cons, List.append_assoc]
    by_cases hq : c = '"'
    · subst hq
      rw [show escChar '"' = ['\\', '"'] from rfl]
      simp only [List.cons_append, List.nil_append]
      rw [parseStringBody_esc '"' 34 (by decide) (by decide), ih]
      rfl
    · by_cases hb : c = '\\'
      · subst hb
        rw [show escChar '\\' = ['\\', '\\'] from rfl]
        simp only [List.cons_append, List.nil_append]
        rw [parseStringBody_esc '\\' 92 (by decide) (by decide), ih]
        rfl
      · by_cases h3 : c.toNat = 8
        · rw [show escChar c = ['\\', 'b'] by simp [escChar, hq, hb, h3]]
          simp only [List.cons_append, List.nil_append]
          rw [parseStringBody_esc 'b' 8 (by decide) (by decide), ih,
            charUnits_bmp c (by omega), h3]
          rfl
        · by_cases h4 : c.toNat = 9
          · rw [show escChar c = ['\\', 't'] by simp [escChar, hq, hb, h3, h4]]
            simp only [List.cons_append, List.nil_append]
            rw [parseStringBody_esc 't' 9 (by decide) (by decide), ih,
              charUnits_bmp c (by omega), h4]
            rfl
          · by_cases h5 : c.toNat = 10
            · rw [show escChar c = ['\\', 'n'] by
                simp [escChar, hq, hb, h3, h4, h5]]
              simp only [List.cons_append, List.nil_append]
              rw [parseStringBody_esc 'n' 10 (by decide) (by decide), ih,
                charUnits_bmp c (by omega), h5]
              rfl
            · by_cases h6 : c.toNat = 12
              · rw [show escChar c = ['\\', 'f'] by
                  simp [escChar, hq, hb, h3, h4, h5, h6]]
                simp only [List.cons_append, List.nil_append]
                rw [parseStringBody_esc 'f' 12 (by decide) (by decide), ih,
                  charUnits_bmp c (by omega), h6]
                rfl
              · by_cases h7 : c.toNat = 13
                · rw [show escChar c = ['\\', 'r'] by
                    simp [escChar, hq, hb, h3, h4, h5, h6, h7]]
                  simp only [List.cons_append, List.nil_append]
                  rw [parseStringBody_esc 'r' 13 (by decide) (by decide), ih,
                    charUnits_bmp c (by omega), h7]
                  rfl
                · by_cases h8 : c.toNat < 0x20
                  · rw [show escChar c = ['\\', 'u', '0', '0',
                        hexDigitChar (c.toNat / 16), hexDigitChar (c.toNat % 16)] by
                      simp [escChar, hq, hb, h3, h4, h5, h6, h7, h8]]
                    simp only [List.cons_append, List.nil_append]
                    rw [parseStringBody_u '0' '0' _ _ 0 0 (c.toNat / 16)
                      (c.toNat % 16) (by decide) (by decide)
                      (hexVal_hexDigitChar _ (by omega))
                      (hexVal_hexDigitChar _ (by omega)), ih,
                      charUnits_bmp c (by omega)]
                    have hv : 0 * 4096 + 0 * 256 + c.toNat / 16 * 16 +
                        c.toNat % 16 = c.toNat := by omega
                    rw [hv]
                    rfl
                  · rw [show escChar c = [c] by
                      simp [escChar, hq, hb, h3, h4, h5, h6, h7, h8]]
                    simp only [List.singleton_append]
                    rw [parseStringBody_lit c hq hb h8, ih]
                    rfl

/-! ## Lemmas: key sorting and object construction -/

theorem insKV_perm {α : Type} (x : String × α) (l : List (String × α)) :
    List.Perm (insKV x l) (x :: l) := by
  induction l with
  | nil => simp [insKV]
  | cons y rest ih =>
    by_cases h : keyLt x.1 y.1
    · simp [insKV, h]
    · simp only [insKV, if_neg h]
      exact (ih.cons y).trans (List.Perm.swap x y rest)

theorem sortKV_perm {α : Type} (l : List (String × α)) :
    List.Perm (sortKV l) l := by
  induction l with
  | nil => simp [sortKV]
  | cons x rest ih =>
    exact (insKV_perm x (sortKV rest)).trans (ih.cons x)

theorem insKV_mapVal {α β : Type} (f : α → β) (k : String) (v : α)
    (l : List (String × α)) :
    insKV (k, f v) (mapVal f l) = mapVal f (insKV (k, v) l) := by
  induction l with
  | nil => rfl
  | cons y rest ih =>
    have hm : mapVal f (y :: rest) = (y.1, f y.2) :: mapVal f rest := rfl
    rw [hm]
    rw [show insKV (k, f v) ((y.1, f y.2) :: mapVal f rest) =
      if keyLt k y.1 then (k, f v) :: (y.1, f y.2) :: mapVal f rest
      else (y.1, f y.2) :: insKV (k, f v) (mapVal f rest) from rfl]
    rw [show insKV (k, v) (y :: rest) =
      if keyLt k y.1 then (k, v) :: y :: rest
      else y :: insKV (k, v) rest from rfl]
    by_cases h : keyLt k y.1
    · rw [if_pos h, if_pos h]
      rfl
    · rw [if_neg h, if_neg h, ih]
      rfl

theorem sortKV_mapVal {α β : Type} (f : α → β) (l : List (String × α)) :
    sortKV (mapVal f l) = mapVal f (sortKV l) := by
  induction l with
  | nil => rfl
  | cons x rest ih =>
    show insKV (x.1, f x.2) (sortKV (mapVal f rest)) = _
    rw [ih, insKV_mapVal]
    rfl

theorem mapVal_fst {α β : Type} (f : α → β) (l : List (String × α)) :
    (mapVal f l).map Prod.fst = l.map Prod.fst := by
  induction l with
  | nil => rfl
  | cons x rest ih =>
    simp only [mapVal, List.map_cons] at ih ⊢
    rw [ih]

theorem distinctKeys_iff (l : List String) :
    distinctKeys l = true ↔ l.Nodup := by
  induction l with
  | nil => simp [distinctKeys]
  | cons k rest ih =>
    simp [distinctKeys, List.nodup_cons, ih, Bool.and_eq_true]

theorem jsizeM_eq_sum (l : List (String × JValue)) :
    jsizeM l = (l.map fun kv => 1 + jsizeV kv.2).sum := by
  induction l with
  | nil => rfl
  | cons kv rest ih =>
    cases kv with
    | mk k v =>
      rw [jsizeM]
      simp [ih]
      try omega

theorem jsizeM_sortKV (l : List (String × JValue)) :
    jsizeM (sortKV l) = jsizeM l := by
  rw [jsizeM_eq_sum, jsizeM_eq_sum]
  exact List.Perm.sum_eq ((sortKV_perm l).map _)

theorem wfJMembers_iff (l : List (String × JValue)) :
    wfJMembers l = true ↔ ∀ kv ∈ l, wfJ kv.2 = true := by
  induction l with
  | nil => simp [wfJMembers]
  | cons kv rest ih =>
    cases kv with
    | mk k v =>
      rw [wfJMembers]
      simp [Bool.and_eq_true, ih]

theorem wfJList_iff (l : List JValue) :
    wfJList l = true ↔ ∀ v ∈ l, wfJ v = true := by
  induction l with
  | nil => simp [wfJList]
  | cons v rest ih =>
    rw [wfJList]
    simp [Bool.and_eq_true, ih]

theorem jsizeV_le_jsizeL (v : JValue) (items : List JValue) (h : v ∈ items) :
    jsizeV v ≤ jsizeL items := by
  induction items with
  | nil => cases h
  | cons w rest ih =>
    rw [jsizeL]
    rcases List.mem_cons.mp h with rfl | h'
    · omega
    · have := ih h'
      omega

theorem jsizeV_le_jsizeM (kv : String × JValue) (ms : List (String × JValue))
    (h : kv ∈ ms) : jsizeV kv.2 ≤ jsizeM ms := by
  induction ms with
  | nil => cases h
  | cons x rest ih =>
    cases x with
    | mk k v =>
      rw [jsizeM]
      rcases List.mem_cons.mp h with rfl | h'
      · show jsizeV v ≤ 1 + jsizeV v + jsizeM rest
        omega
      · have := ih h'
        omega

theorem objSet_not_mem {α : Type} (m : List (String × α)) (k : String) (v : α)
    (h : k ∉ m.map Prod.fst) : objSet m k v = m ++ [(k, v)] := by
  induction m with
  | nil => rfl
  | cons y rest ih =>
    have h1 : ¬y.1 = k := by
      intro e
      exact h (by simp [e])
    have h2 : k ∉ rest.map Prod.fst := by
      intro hk
      exact h (by simp [hk])
    simp [objSet, h1, ih h2]

theorem foldl_objSet_fresh (l : List (String × JValue)) : ∀ acc,
    (l.map Prod.fst).Nodup →
    (∀ k ∈ l.map Prod.fst, k ∉ acc.map Prod.fst) →
    l.foldl (fun m kv => objSet m kv.1 kv.2) acc = acc ++ l := by
  induction l with
  | nil =>
    intro acc _ _
    simp
  | cons kv rest ih =>
    intro acc hn hdis
    have hn' : (kv.1 :: rest.map Prod.fst).Nodup := by
      rw [List.map_cons] at hn
      exact hn
    have hnc := List.nodup_cons.mp hn'
    simp only [List.foldl_cons]
    rw [objSet_not_mem acc kv.1 kv.2 (hdis kv.1 (by simp))]
    rw [ih (acc ++ [(kv.1, kv.2)]) hnc.2]
    · simp
    · intro k hk
      have hkacc := hdis k (by simp [hk])
      have hkne : k ≠ kv.1 := by
        intro e
        subst e
        exact hnc.1 hk
      simp only [List.map_append, List.mem_append, List.map_cons, List.map_nil,
        List.mem_singleton]
      rintro (hc | hc)
      · exact hkacc hc
      · exact hkne hc

theorem jsObjFromEntries_nodup (l : List (String × JValue))
    (h : (l.map Prod.fst).Nodup) : jsObjFromEntries l = l := by
  have := foldl_objSet_fresh l [] h (by simp)
  simpa [jsObjFromEntries] using this

theorem canonJMembers_eq (ms : List (String × JValue)) :
    canonJMembers ms = mapVal canonJ ms := by
  induction ms with
  | nil => rfl
  | cons kv rest ih =>
    cases kv with
    | mk k v =>
      rw [canonJMembers]
      simp [mapVal, ih]

theorem renderMembers_eq (ms : List (String × JValue)) :
    renderMembers ms = mapVal canonChars ms := by
  induction ms with
  | nil => rfl
  | cons kv rest ih =>
    cases kv with
    | mk k v =>
      rw [renderMembers]
      simp [mapVal, ih]

theorem canonJList_eq (items : List JValue) :
    canonJList items = items.map canonJ := by
  induction items with
  | nil => rfl
  | cons v rest ih =>
    rw [canonJList]
    simp [ih]

/-! ## Lemmas: parsing the canonical serialization -/

theorem jsizeV_pos (v : JValue) : 1 ≤ jsizeV v := by
  cases v <;> rw [jsizeV] <;> omega

theorem skipWs_cons (c : Char) (r : List Char) (h : isJsonWs c = false) :
    skipWs (c :: r) = c :: r := by
  simp [skipWs, List.dropWhile_cons, h]

theorem isDigitChar_props (c : Char) (h : isDigitChar c = true) :
    isJsonWs c = false ∧ c ≠ '\x7b' ∧ c ≠ '[' ∧ c ≠ '"' ∧ c ≠ 'n' ∧
      c ≠ 't' ∧ c ≠ 'f' ∧ c ≠ '-' ∧ c ≠ ']' ∧ c ≠ '\x7d' := by
  refine ⟨?_, fun e => absurd (e ▸ h) (by decide),
    fun e => absurd (e ▸ h) (by decide), fun e => absurd (e ▸ h) (by decide),
    fun e => absurd (e ▸ h) (by decide), fun e => absurd (e ▸ h) (by decide),
    fun e => absurd (e ▸ h) (by decide), fun e => absurd (e ▸ h) (by decide),
    fun e => absurd (e ▸ h) (by decide), fun e => absurd (e ▸ h) (by decide)⟩
  by_contra hw
  have hw' : isJsonWs c = true := by
    cases hcw : isJsonWs c
    · exact absurd hcw hw
    · rfl
  simp [isJsonWs] at hw'
  rcases hw' with ((e | e) | e) | e <;> subst e <;> exact absurd h (by decide)

theorem delimOk_comma (xs : List Char) : delimOk (',' :: xs) := Or.inl rfl

theorem delimOk_rbrace (xs : List Char) : delimOk ('\x7d' :: xs) :=
  Or.inr (Or.inl rfl)

theorem delimOk_rbracket (xs : List Char) : delimOk (']' :: xs) :=
  Or.inr (Or.inr rfl)

theorem delim_not_digit (rest : List Char) (h : delimOk rest) :
    ∀ c cs, rest = c :: cs → isDigitChar c = false := by
  intro c cs e
  subst e
  have h' : c = ',' ∨ c = '\x7d' ∨ c = ']' := h
  rcases h' with e | e | e <;> subst e <;> decide

theorem parseValue_str (fuel : Nat) (s : String) (rest : List Char) :
    parseValue (fuel + 1) (quoteChars s ++ rest) = .ok (.str s, rest) := by
  rw [show quoteChars s ++ rest =
    '"' :: (s.data.flatMap escChar ++ '"' :: rest) by simp [quoteChars]]
  rw [parseValue, skipWs_cons _ _ (by decide)]
  simp [parseStringBody_quote, except_bind_ok]
  show utf16ToString (utf16Units s) = s
  exact utf16ToString_units s

theorem canonChars_head (v : JValue) : ∃ d ds, canonChars v = d :: ds ∧
    isJsonWs d = false ∧ d ≠ ']' ∧ d ≠ '\x7d' := by
  cases v with
  | null =>
    refine ⟨'n', ['u', 'l', 'l'], ?_, by decide, by decide, by decide⟩
    rw [canonChars]
  | bool b =>
    cases b with
    | true =>
      refine ⟨'t', ['r', 'u', 'e'], ?_, by decide, by decide, by decide⟩
      rw [canonChars]
    | false =>
      refine ⟨'f', ['a', 'l', 's', 'e'], ?_, by decide, by decide, by decide⟩
      rw [canonChars]
  | num n =>
    rw [show canonChars (.num n) = intChars n by rw [canonChars]]
    by_cases hn : n < 0
    · refine ⟨'-', natChars (-n).toNat, ?_, by decide, by decide, by decide⟩
      simp [intChars, hn]
    · rw [show intChars n = natChars n.toNat by simp [intChars, hn]]
      obtain ⟨hne, hdig⟩ := natChars_props n.toNat
      cases hnc : natChars n.toNat with
      | nil => exact absurd hnc hne
      | cons d ds =>
        have hd : isDigitChar d = true := by
          apply hdig
          rw [hnc]
          simp
        obtain ⟨hws, _, _, _, _, _, _, _, hbr, hbc⟩ := isDigitChar_props d hd
        exact ⟨d, ds, rfl, hws, hbr, hbc⟩
  | str s =>
    refine ⟨'"', s.data.flatMap escChar ++ ['"'], ?_, by decide, by decide,
      by decide⟩
    rw [canonChars]
    rfl
  | arr items =>
    refine ⟨'[', canonItems items ++ [']'], ?_, by decide, by decide, by decide⟩
    rw [canonChars]
  | obj ms =>
    refine ⟨'\x7b', joinMembers (sortKV (renderMembers ms)) ++ ['\x7d'], ?_,
      by decide, by decide, by decide⟩
    rw [canonChars]

theorem parseItems_canon (N : Nat)
    (ih : ∀ w, jsizeV w ≤ N → wfJ w = true → ∀ fuel rest, jsizeV w ≤ fuel →
      delimOk rest → parseValue fuel (canonChars w ++ rest) = .ok (canonJ w, rest)) :
    ∀ (items : List JValue), items ≠ [] → ∀ (fuel : Nat) (rest : List Char),
      wfJList items = true → jsizeL items ≤ N → jsizeL items ≤ fuel →
      parseItems fuel (canonItems items ++ ']' :: rest) =
        .ok (canonJList items, rest) := by
  intro items
  induction items with
  | nil =>
    intro h
    exact absurd rfl h
  | cons v0 vrest ihl =>
    intro _ fuel rest hwf hN hfuel
    have hsz : jsizeL (v0 :: vrest) = 1 + jsizeV v0 + jsizeL vrest := by
      rw [jsizeL]
    have hv0N : jsizeV v0 ≤ N := le_trans (jsizeV_le_jsizeL v0 _ (by simp)) hN
    have hwf' := (wfJList_iff _).mp hwf
    have hwf0 : wfJ v0 = true := hwf' v0 (by simp)
    cases fuel with
    | zero =>
      exfalso
      omega
    | succ f =>
      cases vrest with
      | nil =>
        rw [show canonItems [v0] = canonChars v0 by rw [canonItems]]
        rw [parseItems]
        rw [ih v0 hv0N hwf0 f (']' :: rest) (by omega) (delimOk_rbracket rest)]
        simp only [except_bind_ok]
        rw [skipWs_cons _ _ (by decide)]
        simp [canonJList]
      | cons v1 vrest' =>
        rw [show canonItems (v0 :: v1 :: vrest') =
          canonChars v0 ++ ',' :: canonItems (v1 :: vrest') by
            rw [canonItems]
            simp]
        rw [show (canonChars v0 ++ ',' :: canonItems (v1 :: vrest')) ++ ']' :: rest =
          canonChars v0 ++ (',' :: (canonItems (v1 :: vrest') ++ ']' :: rest)) by
            simp]
        rw [parseItems]
        rw [ih v0 hv0N hwf0 f _ (by omega) (delimOk_comma _)]
        simp only [except_bind_ok]
        rw [skipWs_cons _ _ (by decide)]
        have hd1 : jsizeL (v1 :: vrest') = 1 + jsizeV v1 + jsizeL vrest' := by
          rw [jsizeL]
        have hrec := ihl (by simp) f rest
          ((wfJList_iff _).mpr fun v hv => hwf' v (by simp [hv]))
          (by omega) (by omega)
        simp only [hrec]
        rw [show canonJList (v0 :: v1 :: vrest') =
          canonJ v0 :: canonJList (v1 :: vrest') by
            rw [canonJList]]
        rfl

theorem parseMembers_canon (N : Nat)
    (ih : ∀ w, jsizeV w ≤ N → wfJ w = true → ∀ fuel rest, jsizeV w ≤ fuel →
      delimOk rest → parseValue fuel (canonChars w ++ rest) = .ok (canonJ w, rest)) :
    ∀ (ms : List (String × JValue)), ms ≠ [] → ∀ (fuel : Nat) (rest : List Char),
      wfJMembers ms = true → jsizeM ms ≤ N → jsizeM ms ≤ fuel →
      parseMembers fuel (joinMembers (mapVal canonChars ms) ++ '\x7d' :: rest) =
        .ok (mapVal canonJ ms, rest) := by
  intro ms
  induction ms with
  | nil =>
    intro h
    exact absurd rfl h
  | cons kv mrest ihm =>
    obtain ⟨k, v⟩ := kv
    intro _ fuel rest hwf hN hfuel
    have hsz : jsizeM ((k, v) :: mrest) = 1 + jsizeV v + jsizeM mrest := by
      rw [jsizeM]
    have hvN : jsizeV v ≤ N :=
      le_trans (jsizeV_le_jsizeM (k, v) _ (by simp)) hN
    have hwf' := (wfJMembers_iff _).mp hwf
    have hwfv : wfJ v = true := hwf' (k, v) (by simp)
    cases fuel with
    | zero =>
      exfalso
      omega
    | succ f =>
      cases mrest with
      | nil =>
        rw [show joinMembers (mapVal canonChars [(k, v)]) =
          quoteChars k ++ ':' :: canonChars v by rw [mapVal]; simp [joinMembers]]
        rw [show (quoteChars k ++ ':' :: canonChars v) ++ '\x7d' :: rest =
          '"' :: (k.data.flatMap escChar ++ '"' ::
            (':' :: (canonChars v ++ '\x7d' :: rest))) by simp [quoteChars]]
        rw [parseMembers]
        rw [skipWs_cons _ _ (by decide)]
        simp only [parseStringBody_quote, except_bind_ok]
        rw [skipWs_cons _ _ (by decide)]
        simp only []
        rw [ih v hvN hwfv f _ (by omega) (delimOk_rbrace rest)]
        simp only [except_bind_ok]
        rw [skipWs_cons _ _ (by decide)]
        rw [show utf16ToString (k.data.flatMap charUnits) = k from
          utf16ToString_units k]
        simp [mapVal]
      | cons kv1 mrest' =>
        rw [show joinMembers (mapVal canonChars ((k, v) :: kv1 :: mrest')) =
          quoteChars k ++ ':' :: canonChars v ++
            ',' :: joinMembers (mapVal canonChars (kv1 :: mrest')) by
          rw [show mapVal canonChars ((k, v) :: kv1 :: mrest') =
            (k, canonChars v) :: (kv1.1, canonChars kv1.2) ::
              mapVal canonChars mrest' from rfl]
          rw [joinMembers] <;> first | rfl | simp]
        rw [show (quoteChars k ++ ':' :: canonChars v ++
            ',' :: joinMembers (mapVal canonChars (kv1 :: mrest'))) ++
            '\x7d' :: rest =
          '"' :: (k.data.flatMap escChar ++ '"' ::
            (':' :: (canonChars v ++ ',' ::
              (joinMembers (mapVal canonChars (kv1 :: mrest')) ++
                '\x7d' :: rest)))) by simp [quoteChars]]
        rw [parseMembers]
        rw [skipWs_cons _ _ (by decide)]
        simp only [parseStringBody_quote, except_bind_ok]
        rw [skipWs_cons _ _ (by decide)]
        simp only []
        rw [ih v hvN hwfv f _ (by omega) (delimOk_comma _)]
        simp only [except_bind_ok]
        rw [skipWs_cons _ _ (by decide)]
        have hd1 : jsizeM (kv1 :: mrest') =
            1 + jsizeV kv1.2 + jsizeM mrest' := by
          obtain ⟨k1, v1⟩ := kv1
          rw [jsizeM]
        have hrec := ihm (by simp) f rest
          ((wfJMembers_iff _).mpr fun m hm => hwf' m (by simp [hm]))
          (by omega) (by omega)
        simp only [hrec]
        rw [show utf16ToString (k.data.flatMap charUnits) = k from
          utf16ToString_units k]
        rw [show mapVal canonJ ((k, v) :: kv1 :: mrest') =
          (k, canonJ v) :: mapVal canonJ (kv1 :: mrest') from rfl]
        rfl

theorem parseValue_null (fuel : Nat) (rest : List Char) :
    parseValue (fuel + 1) ("null".data ++ rest) = .ok (.null, rest) := by
  rw [show ("null".data ++ rest) = 'n' :: 'u' :: 'l' :: 'l' :: rest from rfl]
  rw [parseValue, skipWs_cons _ _ (by decide)]
  simp

theorem parseValue_true (fuel : Nat) (rest : List Char) :
    parseValue (fuel + 1) ("true".data ++ rest) = .ok (.bool true, rest) := by
  rw [show ("true".data ++ rest) = 't' :: 'r' :: 'u' :: 'e' :: rest from rfl]
  rw [parseValue, skipWs_cons _ _ (by decide)]
  simp

theorem parseValue_false (fuel : Nat) (rest : List Char) :
    parseValue (fuel + 1) ("false".data ++ rest) = .ok (.bool false, rest) := by
  rw [show ("false".data ++ rest) = 'f' :: 'a' :: 'l' :: 's' :: 'e' :: rest from rfl]
  rw [parseValue, skipWs_cons _ _ (by decide)]
  simp

theorem parseValue_nat (fuel : Nat) (m : Nat) (rest : List Char)
    (hr : delimOk rest) :
    parseValue (fuel + 1) (natChars m ++ rest) = .ok (.num (m : Int), rest) := by
  obtain ⟨hne, hdig⟩ := natChars_props m
  cases hnc : natChars m with
  | nil => exact absurd hnc hne
  | cons d ds =>
    have hd : isDigitChar d = true := by
      apply hdig
      rw [hnc]
      simp
    obtain ⟨hws, hc1, hc2, hc3, hc4, hc5, hc6, hc7, _, _⟩ := isDigitChar_props d hd
    rw [show (d :: ds) ++ rest = d :: (ds ++ rest) from rfl]
    rw [parseValue, skipWs_cons _ _ hws]
    simp only [hc1, hc2, hc3, hc4, hc5, hc6, hc7, if_neg, if_pos, hd,
      ite_false, ite_true, if_true, if_false]
    rw [show (d :: (ds ++ rest)) = (d :: ds) ++ rest from rfl, ← hnc,
      parseNatTok_natChars m rest (delim_not_digit rest hr)]
    rfl

theorem parseValue_num (fuel : Nat) (n : Int) (rest : List Char)
    (hr : delimOk rest) :
    parseValue (fuel + 1) (intChars n ++ rest) = .ok (.num n, rest) := by
  by_cases hn : n < 0
  · rw [show intChars n = '-' :: natChars (-n).toNat by simp [intChars, hn]]
    rw [show ('-' :: natChars (-n).toNat) ++ rest =
      '-' :: (natChars (-n).toNat ++ rest) from rfl]
    rw [parseValue, skipWs_cons _ _ (by decide)]
    have h0 : (0 : Int) ≤ -n := by omega
    have he : -(-n ⊔ 0) = n := by
      rw [sup_eq_left.mpr h0]
      omega
    simp [parseNatTok_natChars _ rest (delim_not_digit rest hr), he,
      except_bind_ok]
  · rw [show intChars n = natChars n.toNat by simp [intChars, hn]]
    rw [parseValue_nat fuel n.toNat rest hr]
    have he : (n.toNat : Int) = n := by omega
    rw [he]

theorem parseValue_arr_branch (f : Nat) (cs : List Char) :
    parseValue (f + 1) ('[' :: cs) =
      (match skipWs cs with
      | ']' :: rest2 => .ok (.arr [], rest2)
      | rest2 => do
        let (items, r) ← parseItems f rest2
        .ok (.arr items, r)) := by
  rw [parseValue, skipWs_cons _ _ (by decide)]
  rfl

theorem parseValue_obj_branch (f : Nat) (cs : List Char) :
    parseValue (f + 1) ('\x7b' :: cs) =
      (match skipWs cs with
      | '\x7d' :: rest2 => .ok (.obj [], rest2)
      | rest2 => do
        let (ms, r) ← parseMembers f rest2
        .ok (.obj (jsObjFromEntries ms), r)) := by
  rw [parseValue, skipWs_cons _ _ (by decide)]
  rfl

/-- Parsing the canonical serialization of a well-formed value, followed
by a legal delimiter, returns its canonical form and the delimiter. -/
theorem parseValue_canon : ∀ (N : Nat) (v : JValue), jsizeV v ≤ N →
    wfJ v = true → ∀ (fuel : Nat) (rest : List Char), jsizeV v ≤ fuel →
    delimOk rest →
    parseValue fuel (canonChars v ++ rest) = .ok (canonJ v, rest) := by
  intro N
  induction N with
  | zero =>
    intro v hv
    exact absurd hv (by have := jsizeV_pos v; omega)
  | succ N ihN =>
    intro v hvN hwf fuel rest hfuel hrest
    cases fuel with
    | zero =>
      exact absurd hfuel (by have := jsizeV_pos v; omega)
    | succ f =>
      cases v with
      | null =>
        rw [show canonChars .null = "null".data by rw [canonChars]]
        rw [parseValue_null]
        rw [show canonJ JValue.null = .null by rw [canonJ]]
      | bool b =>
        cases b with
        | false =>
          rw [show canonChars (.bool false) = "false".data by rw [canonChars]]
          rw [parseValue_false]
          rw [show canonJ (JValue.bool false) = .bool false by rw [canonJ]]
        | true =>
          rw [show canonChars (.bool true) = "true".data by rw [canonChars]]
          rw [parseValue_true]
          rw [show canonJ (JValue.bool true) = .bool true by rw [canonJ]]
      | num n =>
        rw [show canonChars (.num n) = intChars n by rw [canonChars]]
        rw [parseValue_num f n rest hrest]
        rw [show canonJ (JValue.num n) = .num n by rw [canonJ]]
      | str s =>
        rw [show canonChars (.str s) = quoteChars s by rw [canonChars]]
        rw [parseValue_str]
        rw [show canonJ (JValue.str s) = .str s by rw [canonJ]]
      | arr items =>
        have hvsz : jsizeV (JValue.arr items) = 1 + jsizeL items := by
          rw [jsizeV]
        rw [show canonChars (.arr items) = '[' :: (canonItems items ++ [']']) by
          rw [canonChars]]
        rw [show ('[' :: (canonItems items ++ [']'])) ++ rest =
          '[' :: (canonItems items ++ ']' :: rest) by simp]
        rw [parseValue_arr_branch]
        cases items with
        | nil =>
          rw [show canonItems ([] : List JValue) = [] by rw [canonItems]]
          rw [show skipWs (([] : List Char) ++ ']' :: rest) = ']' :: rest from
            skipWs_cons _ _ (by decide)]
          rw [show canonJ (JValue.arr []) = .arr (canonJList []) by rw [canonJ]]
          rw [show canonJList [] = [] by rw [canonJList]]
          rfl
        | cons v0 vrest =>
          obtain ⟨d, ds, hdc, hdw, hdbr, hdbc⟩ := canonChars_head v0
          have hhead : ∃ tail, canonItems (v0 :: vrest) = d :: tail := by
            cases vrest with
            | nil =>
              refine ⟨ds, ?_⟩
              rw [show canonItems [v0] = canonChars v0 by rw [canonItems], hdc]
            | cons v1 vr =>
              refine ⟨ds ++ ',' :: canonItems (v1 :: vr), ?_⟩
              rw [show canonItems (v0 :: v1 :: vr) =
                canonChars v0 ++ ',' :: canonItems (v1 :: vr) by
                  rw [canonItems] <;> simp]
              rw [hdc]
              rfl
          obtain ⟨tail, htail⟩ := hhead
          rw [wfJ] at hwf
          have hparse := parseItems_canon N ihN (v0 :: vrest) (by simp) f rest
            hwf (by omega) (by omega)
          rw [htail]
          rw [show (d :: tail) ++ ']' :: rest = d :: (tail ++ ']' :: rest) from
            rfl]
          rw [skipWs_cons _ _ hdw]
          split
          · rename_i heq
            rw [List.cons.injEq] at heq
            exact absurd heq.1 hdbr
          · rw [show d :: (tail ++ ']' :: rest) = (d :: tail) ++ ']' :: rest
              from rfl, ← htail, hparse]
            rw [show canonJ (JValue.arr (v0 :: vrest)) =
              .arr (canonJList (v0 :: vrest)) by rw [canonJ]]
            rfl
      | obj ms =>
        have hvsz : jsizeV (JValue.obj ms) = 1 + jsizeM ms := by
          rw [jsizeV]
        rw [wfJ] at hwf
        rw [Bool.and_eq_true] at hwf
        obtain ⟨hdk, hwm⟩ := hwf
        rw [show canonChars (.obj ms) =
          '\x7b' :: (joinMembers (sortKV (renderMembers ms)) ++ ['\x7d']) by
          rw [canonChars]]
        rw [renderMembers_eq, sortKV_mapVal]
        rw [show ('\x7b' :: (joinMembers (mapVal canonChars (sortKV ms)) ++
            ['\x7d'])) ++ rest =
          '\x7b' :: (joinMembers (mapVal canonChars (sortKV ms)) ++
            '\x7d' :: rest) by simp]
        rw [parseValue_obj_branch]
        cases hms : sortKV ms with
        | nil =>
          have hms0 : ms = [] := by
            have hp := sortKV_perm ms
            rw [hms] at hp
            exact hp.symm.eq_nil
          subst hms0
          rw [show mapVal canonChars ([] : List (String × JValue)) = [] from rfl]
          rw [show joinMembers [] = [] by rw [joinMembers]]
          rw [show skipWs (([] : List Char) ++ '\x7d' :: rest) = '\x7d' :: rest
            from skipWs_cons _ _ (by decide)]
          rw [show canonJ (JValue.obj []) = .obj (sortKV (canonJMembers [])) by
            rw [canonJ]]
          rw [show canonJMembers ([] : List (String × JValue)) = [] by
            rw [canonJMembers]]
          rfl
        | cons m0 mr =>
          have hhead : ∃ tail,
              joinMembers (mapVal canonChars (m0 :: mr)) = '"' :: tail := by
            cases mr with
            | nil =>
              refine ⟨m0.1.data.flatMap escChar ++ '"' ::
                (':' :: canonChars m0.2), ?_⟩
              rw [show mapVal canonChars [m0] = [(m0.1, canonChars m0.2)] from
                rfl]
              rw [show joinMembers [(m0.1, canonChars m0.2)] =
                quoteChars m0.1 ++ ':' :: canonChars m0.2 by rw [joinMembers]]
              simp [quoteChars]
            | cons m1 mr' =>
              refine ⟨m0.1.data.flatMap escChar ++ '"' ::
                (':' :: (canonChars m0.2 ++
                  ',' :: joinMembers (mapVal canonChars (m1 :: mr')))), ?_⟩
              rw [show mapVal canonChars (m0 :: m1 :: mr') =
                (m0.1, canonChars m0.2) :: (m1.1, canonChars m1.2) ::
                  mapVal canonChars mr' from rfl]
              rw [show joinMembers ((m0.1, canonChars m0.2) ::
                  (m1.1, canonChars m1.2) :: mapVal canonChars mr') =
                quoteChars m0.1 ++ ':' :: canonChars m0.2 ++
                  ',' :: joinMembers ((m1.1, canonChars m1.2) ::
                    mapVal canonChars mr') by
                rw [joinMembers] <;> first | rfl | simp]
              simp [quoteChars, mapVal]
          obtain ⟨tail, htail⟩ := hhead
          have hwm' : wfJMembers (m0 :: mr) = true := by
            refine (wfJMembers_iff _).mpr fun kv hkv => ?_
            exact (wfJMembers_iff _).mp hwm kv ((sortKV_perm ms).mem_iff.mp
              (hms ▸ hkv))
          have hsz' : jsizeM (m0 :: mr) = jsizeM ms := by
            rw [← hms]
            exact jsizeM_sortKV ms
          have hparse := parseMembers_canon N ihN (m0 :: mr) (by simp) f rest
            hwm' (by omega) (by omega)
          have hnodup : ((mapVal canonJ (m0 :: mr)).map Prod.fst).Nodup := by
            rw [mapVal_fst]
            have hperm := ((sortKV_perm ms).map Prod.fst)
            rw [hms] at hperm
            exact (hperm.nodup_iff).mpr ((distinctKeys_iff _).mp hdk)
          rw [htail]
          rw [show ('"' :: tail) ++ '\x7d' :: rest =
            '"' :: (tail ++ '\x7d' :: rest) from rfl]
          rw [skipWs_cons _ _ (by decide)]
          split
          · rename_i heq
            rw [List.cons.injEq] at heq
            exact absurd heq.1 (by decide)
          · rw [show '"' :: (tail ++ '\x7d' :: rest) =
              ('"' :: tail) ++ '\x7d' :: rest from rfl, ← htail, hparse]
            rw [show (do
                let (ms', r) ← (Except.ok (mapVal canonJ (m0 :: mr), rest) :
                  Except String (List (String × JValue) × List Char))
                Except.ok (JValue.obj (jsObjFromEntries ms'), r)) =
              Except.ok (JValue.obj (jsObjFromEntries (mapVal canonJ (m0 :: mr))),
                rest) from rfl]
            rw [jsObjFromEntries_nodup _ hnodup]
            rw [show canonJ (JValue.obj ms) = .obj (sortKV (canonJMembers ms)) by
              rw [canonJ]]
            rw [canonJMembers_eq, sortKV_mapVal, hms]

/-! ## Lemmas: the serialized form is long enough to be its own fuel -/

theorem canonItems_len (N : Nat)
    (ih : ∀ w, jsizeV w ≤ N → jsizeV w ≤ (canonChars w).length) :
    ∀ (items : List JValue), jsizeL items ≤ N →
      jsizeL items ≤ (canonItems items).length + 1 := by
  intro items
  induction items with
  | nil =>
    intro _
    rw [jsizeL]
    omega
  | cons v rest ihl =>
    intro hN
    have hsz : jsizeL (v :: rest) = 1 + jsizeV v + jsizeL rest := by rw [jsizeL]
    have hv : jsizeV v ≤ (canonChars v).length :=
      ih v (le_trans (jsizeV_le_jsizeL v _ (by simp)) hN)
    cases rest with
    | nil =>
      rw [show canonItems [v] = canonChars v by rw [canonItems]]
      have h0 : jsizeL ([] : List JValue) = 0 := by rw [jsizeL]
      omega
    | cons v1 r' =>
      rw [show canonItems (v :: v1 :: r') =
        canonChars v ++ ',' :: canonItems (v1 :: r') by rw [canonItems]; simp]
      have hrec := ihl (by omega)
      rw [hsz]
      simp only [List.length_append, List.length_cons]
      omega

theorem canonMembers_len (N : Nat)
    (ih : ∀ w, jsizeV w ≤ N → jsizeV w ≤ (canonChars w).length) :
    ∀ (ms : List (String × JValue)), jsizeM ms ≤ N →
      jsizeM ms ≤ (joinMembers (mapVal canonChars ms)).length + 1 := by
  intro ms
  induction ms with
  | nil =>
    intro _
    rw [jsizeM]
    omega
  | cons kv rest ihm =>
    cases kv with
    | mk k v =>
      intro hN
      have hsz : jsizeM ((k, v) :: rest) = 1 + jsizeV v + jsizeM rest := by
        rw [jsizeM]
      have hv : jsizeV v ≤ (canonChars v).length :=
        ih v (le_trans (jsizeV_le_jsizeM (k, v) _ (by simp)) hN)
      cases rest with
      | nil =>
        rw [show mapVal canonChars [(k, v)] = [(k, canonChars v)] from rfl]
        rw [show joinMembers [(k, canonChars v)] =
          quoteChars k ++ ':' :: canonChars v by rw [joinMembers]]
        have h0 : jsizeM ([] : List (String × JValue)) = 0 := by rw [jsizeM]
        simp only [List.length_append, List.length_cons, quoteChars]
        omega
      | cons kv1 r' =>
        cases kv1 with
        | mk k1 v1 =>
          rw [show mapVal canonChars ((k, v) :: (k1, v1) :: r') =
            (k, canonChars v) :: (k1, canonChars v1) :: mapVal canonChars r'
            from rfl]
          rw [show joinMembers ((k, canonChars v) ::
              (k1, canonChars v1) :: mapVal canonChars r') =
            quoteChars k ++ ':' :: canonChars v ++ ',' ::
              joinMembers ((k1, canonChars v1) :: mapVal canonChars r') by
            rw [joinMembers]; simp]
          have hrec := ihm (by omega)
          rw [show mapVal canonChars ((k1, v1) :: r') =
            (k1, canonChars v1) :: mapVal canonChars r' from rfl] at hrec
          have hszr : jsizeM ((k1, v1) :: r') = 1 + jsizeV v1 + jsizeM r' := by
            rw [jsizeM]
          rw [hsz]
          simp only [List.length_append, List.length_cons, quoteChars]
          omega

theorem canonLen : ∀ (N : Nat) (v : JValue), jsizeV v ≤ N →
    jsizeV v ≤ (canonChars v).length := by
  intro N
  induction N with
  | zero =>
    intro v hv
    exact absurd hv (by have := jsizeV_pos v; omega)
  | succ N ihN =>
    intro v hvN
    cases v with
    | null =>
      rw [jsizeV, canonChars]
      decide
    | bool b =>
      cases b <;> rw [jsizeV, canonChars] <;> decide
    | num n =>
      rw [jsizeV, canonChars, intChars]
      split
      · simp only [List.length_cons]
        omega
      · exact List.length_pos.mpr (natChars_props _).1
    | str s =>
      rw [jsizeV, canonChars]
      simp only [quoteChars, List.length_cons]
      omega
    | arr items =>
      have hvN' : 1 + jsizeL items ≤ N + 1 := by rw [jsizeV] at hvN; exact hvN
      rw [jsizeV, canonChars]
      have h := canonItems_len N ihN items (by omega)
      simp only [List.length_cons, List.length_append, List.length_singleton]
      omega
    | obj ms =>
      have hvN' : 1 + jsizeM ms ≤ N + 1 := by rw [jsizeV] at hvN; exact hvN
      rw [jsizeV, canonChars]
      have h := canonMembers_len N ihN (sortKV ms) (by rw [jsizeM_sortKV]; omega)
      rw [jsizeM_sortKV] at h
      rw [renderMembers_eq, sortKV_mapVal]
      simp only [List.length_cons, List.length_append, List.length_singleton]
      omega

/-- `JSON.parse` inverts the canonical serialization of any well-formed
value, producing its canonical form. -/
theorem jsonParse_canon (v : JValue) (h : wfJ v = true) :
    jsonParse (canonStringify v) = .ok (canonJ v) := by
  have hfuel : jsizeV v ≤ (canonChars v).length + 1 :=
    le_trans (canonLen (jsizeV v) v le_rfl) (Nat.le_succ _)
  have hp := parseValue_canon (jsizeV v) v le_rfl h
    ((canonChars v).length + 1) [] hfuel trivial
  rw [List.append_nil] at hp
  show (match parseValue ((canonChars v).length + 1) (canonChars v) with
    | .ok (w, rest) => if (skipWs rest).isEmpty then Except.ok w
        else Except.error "unexpected trailing characters"
    | .error e => Except.error e) = Except.ok (canonJ v)
  rw [hp]
  rfl

/-! ## Lemmas: the full cookie round trip -/

theorem utf8EncodeChar_lt (c : Char) : ∀ b ∈ utf8EncodeChar c, b < 256 := by
  have hc : c.toNat < 0x110000 := by
    rcases char_toNat_valid c with h | h <;> omega
  intro b hb
  rw [utf8EncodeChar] at hb
  split at hb
  · simp at hb
    omega
  · split at hb
    · simp at hb
      rcases hb with rfl | rfl <;> omega
    · split at hb
      · simp at hb
        rcases hb with rfl | rfl | rfl <;> omega
      · simp at hb
        rcases hb with rfl | rfl | rfl | rfl <;> omega

theorem utf8Bytes_lt (s : String) : ∀ b ∈ utf8Bytes s, b < 256 := by
  intro b hb
  rw [utf8Bytes] at hb
  simp only [List.mem_flatMap] at hb
  obtain ⟨c, _, hc⟩ := hb
  exact utf8EncodeChar_lt c b hc

theorem signPost_ascii (cs : List Char) (h : ∀ c ∈ cs, c.toNat < 128) :
    ∀ c ∈ signPost cs, c.toNat < 128 := by
  induction cs with
  | nil =>
    intro c hc
    simp [signPost] at hc
  | cons a rest ih =>
    intro c hc
    have ha := h a (by simp)
    have ih' := ih fun x hx => h x (by simp [hx])
    rw [signPost] at hc
    simp only [List.mem_append] at hc
    rcases hc with hc | hc
    · split at hc
      · simp at hc
        subst hc
        decide
      · split at hc
        · simp at hc
          subst hc
          decide
        · split at hc
          · simp at hc
          · simp at hc
            subst hc
            exact ha
    · exact ih' c hc

theorem sign_ascii (data key : String) :
    ∀ c ∈ (sign data key).data, c.toNat < 128 := by
  intro c hc
  exact signPost_ascii _ (b64Encode_ascii _) c hc

theorem utf16Units_sign_length (data key : String) :
    (utf16Units (sign data key)).length = 27 := by
  rw [utf16Units, flatMap_charUnits_of_ascii _ (sign_ascii data key),
    List.length_map]
  exact sign_length data key

theorem utf16Units_append (a b : String) :
    utf16Units (a ++ b) = utf16Units a ++ utf16Units b := by
  cases a with
  | mk da =>
    cases b with
    | mk db =>
      rw [show String.mk da ++ String.mk db = String.mk (da ++ db) from rfl]
      rw [utf16Units, utf16Units, utf16Units]
      rw [show (String.mk (da ++ db)).data = da ++ db from rfl,
        show (String.mk da).data = da from rfl,
        show (String.mk db).data = db from rfl]
      simp

/-- Dropping the 27-unit signature from a signed cookie value and
decoding recovers exactly the serialized payload. -/
theorem parseSession_payload (j key : String) :
    parseSession (sign j key ++ String.mk (b64Encode (utf8Bytes j))) =
      jsonParse j := by
  show jsonParse (utf8Decode (b64DecodeUnits
    ((utf16Units (sign j key ++ String.mk (b64Encode (utf8Bytes j)))).drop
      SIGNATURE_DIGEST_LENGTH))) = jsonParse j
  rw [utf16Units_append]
  rw [show (SIGNATURE_DIGEST_LENGTH : Nat) =
    (utf16Units (sign j key)).length from (utf16Units_sign_length j key).symm]
  rw [List.drop_left]
  rw [b64_roundtrip _ (utf8Bytes_lt j), utf8Decode_bytes]

theorem createCookie_none_eq (P : JValue) (env : Env) :
    createCookie P none env =
      Except.bind (getSecretKey env) fun key =>
        Except.ok (sign (canonStringify P) key ++
          String.mk (b64Encode (utf8Bytes (canonStringify P)))) := rfl

theorem createCookie_some_eq (P : JValue) (s : String) (env : Env) :
    createCookie P (some s) env =
      if s = "" then
        Except.bind (getSecretKey env) fun key =>
          Except.ok (sign (canonStringify P) key ++
            String.mk (b64Encode (utf8Bytes (canonStringify P))))
      else Except.ok (sign (canonStringify P) s ++
        String.mk (b64Encode (utf8Bytes (canonStringify P)))) := rfl

/-- Every `ok` result of `createCookie` is the signature for some key,
concatenated with the base64 of the canonical serialization. -/
theorem createCookie_ok (P : JValue) (sk : Option String) (env : Env)
    (cookie : String) (hc : createCookie P sk env = .ok cookie) :
    ∃ key, cookie = sign (canonStringify P) key ++
      String.mk (b64Encode (utf8Bytes (canonStringify P))) := by
  cases sk with
  | none =>
    rw [createCookie_none_eq] at hc
    cases henv : getSecretKey env with
    | error e =>
      rw [henv] at hc
      exact absurd hc (by simp [Except.bind])
    | ok k =>
      rw [henv] at hc
      simp only [Except.bind, Except.ok.injEq] at hc
      exact ⟨k, hc.symm⟩
  | some s =>
    rw [createCookie_some_eq] at hc
    by_cases hs : s = ""
    · rw [if_pos hs] at hc
      cases henv : getSecretKey env with
      | error e =>
        rw [henv] at hc
        exact absurd hc (by simp [Except.bind])
      | ok k =>
        rw [henv] at hc
        simp only [Except.bind, Except.ok.injEq] at hc
        exact ⟨k, hc.symm⟩
    · rw [if_neg hs] at hc
      simp only [Except.ok.injEq] at hc
      exact ⟨s, hc.symm⟩

theorem verifySessionString_eq (rk : List Nat) (env : Env) (session : String) :
    verifySessionString rk env session =
      Except.bind (getSecretKey env) fun key =>
        Except.ok (verify rk key
          (utf8Decode (b64DecodeUnits
            ((utf16Units session).drop SIGNATURE_DIGEST_LENGTH)))
          (utf16ToString ((utf16Units session).take SIGNATURE_DIGEST_LENGTH))) := rfl

/-! ## The claims -/

/-- C1: for every payload `P` and every key of at least 32 UTF-8 bytes,
verifying the canonical serialization of `P` against the signature
`sign` produces over that serialization returns `true`, whatever random
comparison key `timeSafeCompare` draws. -/
theorem claim1_sign_verify_roundtrip (rk : List Nat) (P : JValue) (K : String)
    (_hK : 32 ≤ byteLength K) :
    verify rk K (canonStringify P) (sign (canonStringify P) K) = true :=
  verify_sign rk K (canonStringify P)

theorem claim1_witness :
    32 ≤ byteLength "0123456789abcdef0123456789abcdef" ∧
      verify [] "0123456789abcdef0123456789abcdef"
        (canonStringify (JValue.obj []))
        (sign (canonStringify (JValue.obj []))
          "0123456789abcdef0123456789abcdef") = true :=
  ⟨by decide, claim1_sign_verify_roundtrip [] (JValue.obj [])
    "0123456789abcdef0123456789abcdef" (by decide)⟩

/-- C2 (corrected): only the paths that fetch the key from the
environment refuse a key shorter than 32 UTF-8 bytes — `createCookie`
without an explicit key and `verifySessionString` fail through
`getSecretKey` — while `verify` itself performs no length check and
returns a verdict for a key of any length. -/
theorem claim2_short_key_paths (s : String) (n : Option String) (P : JValue)
    (rk : List Nat) (sess : String) (h : byteLength s < 32) :
    (∃ e, createCookie P none ⟨some s, n⟩ = .error e) ∧
    (∃ e, verifySessionString rk ⟨some s, n⟩ sess = .error e) ∧
    verify rk s (canonStringify P) (sign (canonStringify P) s) = true := by
  obtain ⟨e, he⟩ := getSecretKey_short s n h
  refine ⟨⟨e, ?_⟩, ⟨e, ?_⟩, verify_sign rk s (canonStringify P)⟩
  · rw [createCookie_none_eq, he]
    rfl
  · rw [verifySessionString_eq, he]
    rfl

theorem claim2_witness :
    byteLength "x" < 32 ∧
      ((∃ e, createCookie JValue.null none ⟨some "x", none⟩ = .error e) ∧
       (∃ e, verifySessionString [] ⟨some "x", none⟩ "" = .error e) ∧
       verify [] "x" (canonStringify JValue.null)
         (sign (canonStringify JValue.null) "x") = true) :=
  ⟨by decide, claim2_short_key_paths "x" none JValue.null [] "" (by decide)⟩

/-- C2 counterexample: the spec claims no signing or verification path
proceeds with a sub-32-byte key, but `verify` returns a boolean verdict
for the 1-byte key `x`, and `createCookie` with that key passed
explicitly produces a cookie rather than failing. -/
theorem claim2_counterexample :
    byteLength "x" < 32 ∧
      verify [] "x" "hello" (sign "hello" "x") = true ∧
      createCookie JValue.null (some "x") ⟨none, none⟩ =
        .ok (sign (canonStringify JValue.null) "x" ++
          String.mk (b64Encode (utf8Bytes (canonStringify JValue.null)))) := by
  refine ⟨by decide, verify_sign [] "x" "hello", ?_⟩
  rw [createCookie_some_eq, if_neg (by decide : ¬("x" : String) = "")]

/-- C3: under the default sha1/base64 configuration `sign` always
returns exactly 27 characters, none of which is `/`, `+` or `=`. -/
theorem claim3_signature_shape (data key : String) :
    (sign data key).length = 27 ∧
      ((sign data key).data.all fun c => !(c == '/' || c == '+' || c == '=')) =
        true :=
  ⟨sign_length data key,
    signPost_no_bad (b64Encode (hmacSha1 (utf8Bytes key) (utf8Bytes data)))⟩

/-- C4: `timeSafeCompare` returns `true` exactly when its two string
arguments are equal, for every choice of the 32-byte random comparison
key; as a total Lean function it has no error path. -/
theorem claim4_timeSafeCompare_iff (rk : List Nat) (a b : String) :
    timeSafeCompare rk a b = true ↔ a = b := by
  rw [timeSafeCompare_eq]
  simp

/-- C5 (corrected): a cookie segment is split on every `=`, and only
`split[1]` is kept: the segment `k=v=w` maps `k` to the decode attempt
of `v` alone, dropping `=w`, rather than to the full remainder `v=w`
after the first `=`. -/
theorem claim5_first_equals_split (k v w : List Char)
    (dec : String → Except Unit String)
    (hk : ∀ c ∈ k, c ≠ ';' ∧ c ≠ '=' ∧ jsIsWhitespace c = false)
    (hv : ∀ c ∈ v, c ≠ ';' ∧ c ≠ '=' ∧ jsIsWhitespace c = false)
    (hw : ∀ c ∈ w, c ≠ ';' ∧ c ≠ '=' ∧ jsIsWhitespace c = false) :
    parseCookie [String.mk (k ++ '=' :: (v ++ '=' :: w))] dec =
      [(String.mk k, CVal.vStr (tryDecode (String.mk v) dec))] :=
  parseCookie_two_eq k v w dec hk hv hw

theorem claim5_witness :
    (∀ c ∈ ['a'], c ≠ ';' ∧ c ≠ '=' ∧ jsIsWhitespace c = false) ∧
      parseCookie [String.mk (['a'] ++ '=' :: (['b'] ++ '=' :: ['c']))]
          jsDecode =
        [(String.mk ['a'], CVal.vStr (tryDecode (String.mk ['b']) jsDecode))] :=
  ⟨by decide, claim5_first_equals_split ['a'] ['b'] ['c'] jsDecode
    (by decide) (by decide) (by decide)⟩

/-- C5 counterexample: the spec says the value keeps the entire
remainder after the first `=`, so `a=b=c` should map `a` to `b=c`; the
code maps `a` to `b`. -/
theorem claim5_counterexample :
    parseCookie ["a=b=c"] jsDecode = [("a", CVal.vStr "b")] ∧
      parseCookie ["a=b=c"] jsDecode ≠ [("a", CVal.vStr "b=c")] := by decide

/-- C6: `parseCookie` is total — it returns a mapping on every input
list — and a failing percent-decode is caught by `tryDecode`, which
keeps the raw value; concretely, the undecodable `%ZZ` survives
verbatim. -/
theorem claim6_parse_leniency (s : String)
    (dec : String → Except Unit String) (h : dec s = .error ()) :
    tryDecode s dec = s ∧
      parseCookie ["k=%ZZ"] jsDecode = [("k", CVal.vStr "%ZZ")] ∧
      ∀ (hdrs : List String), ∃ m, parseCookie hdrs dec = m := by
  refine ⟨?_, by decide, fun hdrs => ⟨_, rfl⟩⟩
  unfold tryDecode
  rw [h]

theorem claim6_witness :
    jsDecode "%ZZ" = .error () ∧
      (tryDecode "%ZZ" jsDecode = "%ZZ" ∧
       parseCookie ["k=%ZZ"] jsDecode = [("k", CVal.vStr "%ZZ")] ∧
       ∀ (hdrs : List String), ∃ m, parseCookie hdrs jsDecode = m) :=
  ⟨rfl, claim6_parse_leniency "%ZZ" jsDecode rfl⟩

/-- C7: every cookie value `createCookie` produces for a well-formed
payload `P` — however the key was supplied — is mapped by
`parseSession` back to the canonical decode of `P`: the 27-unit
signature is dropped, the remainder base64-decodes to the canonical
serialization, and `JSON.parse` returns `canonJ P`. -/
theorem claim7_roundtrip (P : JValue) (sk : Option String) (env : Env)
    (cookie : String) (hw : wfJ P = true)
    (hc : createCookie P sk env = .ok cookie) :
    parseSession cookie = .ok (canonJ P) := by
  obtain ⟨key, rfl⟩ := createCookie_ok P sk env cookie hc
  rw [parseSession_payload]
  exact jsonParse_canon P hw

theorem claim7_witness :
    wfJ (JValue.obj []) = true ∧
      parseSession (sign (canonStringify (JValue.obj []))
          "0123456789abcdef0123456789abcdef" ++
        String.mk (b64Encode (utf8Bytes (canonStringify (JValue.obj []))))) =
        .ok (canonJ (JValue.obj [])) :=
  ⟨by simp [wfJ, distinctKeys, wfJMembers],
    claim7_roundtrip (JValue.obj [])
      (some "0123456789abcdef0123456789abcdef") ⟨none, none⟩
      (sign (canonStringify (JValue.obj []))
          "0123456789abcdef0123456789abcdef" ++
        String.mk (b64Encode (utf8Bytes (canonStringify (JValue.obj [])))))
      (by simp [wfJ, distinctKeys, wfJMembers]) rfl⟩

/-- C8: `serializeCookie` renders `sameSite` as claimed: boolean `true`
gives `SameSite=Strict`; the strings `lax`, `strict`, `none` compared
case-insensitively give the matching rendering; any other nonempty
string throws, `bogus` included. -/
theorem claim8_sameSite_rendering (s : String) (hs : s ≠ "") :
    serializeCookie "a" "b" { sameSite := some (.jsB true) } =
        .ok "a=b; SameSite=Strict" ∧
      (jsToLower s = "lax" →
        serializeCookie "a" "b" { sameSite := some (.jsS s) } =
          .ok "a=b; SameSite=Lax") ∧
      (jsToLower s = "strict" →
        serializeCookie "a" "b" { sameSite := some (.jsS s) } =
          .ok "a=b; SameSite=Strict") ∧
      (jsToLower s = "none" →
        serializeCookie "a" "b" { sameSite := some (.jsS s) } =
          .ok "a=b; SameSite=None") ∧
      (jsToLower s ≠ "lax" → jsToLower s ≠ "strict" → jsToLower s ≠ "none" →
        serializeCookie "a" "b" { sameSite := some (.jsS s) } =
          .error "option sameSite is invalid") ∧
      serializeCookie "a" "b" { sameSite := some (.jsS "bogus") } =
        .error "option sameSite is invalid" := by
  refine ⟨by rw [serializeCookie_ab_sameSite]; rfl, ?_, ?_, ?_, ?_,
    by rw [serializeCookie_ab_sameSite]; rfl⟩
  · intro h
    rw [serializeCookie_ab_sameSite]
    simp [sameSiteSeg, hs, h, Except.bind]
  · intro h
    rw [serializeCookie_ab_sameSite]
    simp [sameSiteSeg, hs, h, Except.bind]
  · intro h
    rw [serializeCookie_ab_sameSite]
    simp [sameSiteSeg, hs, h, Except.bind]
  · intro h1 h2 h3
    rw [serializeCookie_ab_sameSite]
    simp [sameSiteSeg, hs, h1, h2, h3, Except.bind]

theorem claim8_witness :
    ("Lax" : String) ≠ "" ∧
      (serializeCookie "a" "b" { sameSite := some (.jsB true) } =
          .ok "a=b; SameSite=Strict" ∧
        (jsToLower "Lax" = "lax" →
          serializeCookie "a" "b" { sameSite := some (.jsS "Lax") } =
            .ok "a=b; SameSite=Lax") ∧
        (jsToLower "Lax" = "strict" →
          serializeCookie "a" "b" { sameSite := some (.jsS "Lax") } =
            .ok "a=b; SameSite=Strict") ∧
        (jsToLower "Lax" = "none" →
          serializeCookie "a" "b" { sameSite := some (.jsS "Lax") } =
            .ok "a=b; SameSite=None") ∧
        (jsToLower "Lax" ≠ "lax" → jsToLower "Lax" ≠ "strict" →
          jsToLower "Lax" ≠ "none" →
          serializeCookie "a" "b" { sameSite := some (.jsS "Lax") } =
            .error "option sameSite is invalid") ∧
        serializeCookie "a" "b" { sameSite := some (.jsS "bogus") } =
          .error "option sameSite is invalid") :=
  ⟨by decide, claim8_sameSite_rendering "Lax" (by decide)⟩

/-- C9: `getSecretKey` fails when the environment key is absent or
shorter than 32 UTF-8 bytes — a 31-byte key included — and returns the
key once it reaches 32 bytes. -/
theorem claim9_getSecretKey (s31 s32 : String) (n : Option String)
    (h31 : byteLength s31 = 31) (h32 : byteLength s32 = 32) :
    getSecretKey ⟨none, n⟩ =
        .error "SESSION_COOKIE_SECRET: No secret key provided." ∧
      (∃ e, getSecretKey ⟨some s31, n⟩ = .error e) ∧
      getSecretKey ⟨some s32, n⟩ = .ok s32 :=
  ⟨getSecretKey_missing n, getSecretKey_short s31 n (by omega),
    getSecretKey_ok s32 n (by omega)⟩

theorem claim9_witness :
    (byteLength "aaaaaaaaaaaaaaaaaaaaaaaaaaaaaaa" = 31 ∧
      byteLength "aaaaaaaaaaaaaaaaaaaaaaaaaaaaaaaa" = 32) ∧
      (getSecretKey ⟨none, none⟩ =
          .error "SESSION_COOKIE_SECRET: No secret key provided." ∧
        (∃ e, getSecretKey ⟨some "aaaaaaaaaaaaaaaaaaaaaaaaaaaaaaa", none⟩ =
          .error e) ∧
        getSecretKey ⟨some "aaaaaaaaaaaaaaaaaaaaaaaaaaaaaaaa", none⟩ =
          .ok "aaaaaaaaaaaaaaaaaaaaaaaaaaaaaaaa") :=
  ⟨⟨by decide, by decide⟩,
    claim9_getSecretKey "aaaaaaaaaaaaaaaaaaaaaaaaaaaaaaa"
      "aaaaaaaaaaaaaaaaaaaaaaaaaaaaaaaa" none (by decide) (by decide)⟩

/-- C10: on any input of at most 27 UTF-16 units the payload portion is
empty and `parseSession` fails with a JSON parse error. -/
theorem claim10_short_input (s : String) (h : utf16Length s ≤ 27) :
    parseSession s = .error "unexpected end of input" :=
  parseSession_short s h

theorem claim10_witness :
    utf16Length "" ≤ 27 ∧
      parseSession "" = .error "unexpected end of input" :=
  ⟨by decide, claim10_short_input "" (by decide)⟩

end SessionCookie
